import Mathlib

/-!
Verification of the controller-pak filesystem ("pakfs") described in the
repository specification: redundancy-validated mount, page-chain allocator,
note (directory) table and file handles over a fixed-capacity page medium.

The repository ships only the pakfs test suite; the filesystem code itself
is absent, so every definition below is modelled from the specification
(section references in the doc comments), with the test suite fixing the
observable behaviour (error values, page size, rounding).
-/

namespace PakFs

/-- Modelled from the spec: pages are fixed-size power-of-two blocks; the
test suite fixes the page size at 256 bytes. -/
def pageSize : Nat := 256

/-- Modelled from the spec: the error taxonomy of sections 6 and 7:
structural inconsistency, capacity exhaustion, name and existence errors. -/
inductive Err where
  | structural
  | noSpace
  | nameTooLong
  | exist
  | notExist
  | isDir
  | invalid
deriving DecidableEq, Repr

/-! ## Checksum / redundancy validator (spec section 4.1) -/

/-- Modelled from the spec: a candidate copy of a redundant structure is a
byte block together with its embedded checksum. -/
structure Block where
  data : List Nat
  check : Nat
deriving DecidableEq, Repr

/-- Modelled from the spec: the checksum of a block's bytes (a concrete
sum-based checksum standing in for the medium's checksum function). -/
def checksum (l : List Nat) : Nat := l.sum % 65536

/-- Modelled from the spec: a copy validates when its embedded checksum
matches the checksum of its bytes. -/
def validates (b : Block) : Bool := checksum b.data == b.check

/-- Modelled from the spec: first-valid-in-order resolution of a redundancy
group: return the first copy whose checksum matches. -/
def firstValid (g : List Block) : Option Block := g.find? validates

/-! ## Link (inode) table and page chains (spec sections 3 and 4.3) -/

/-- Modelled from the spec: a link-table entry is a free marker, a
chain-terminator marker, or the index of the next page in some chain. -/
inductive LinkEntry where
  | free
  | term
  | next (i : Nat)
deriving DecidableEq, Repr

/-- Decides whether an optional link-table entry is the free marker. -/
def isFreeEntry : Option LinkEntry → Bool
  | some .free => true
  | _ => false

/-- Modelled from the spec: indices of the pages marked free in the link
table, in ascending scan order. -/
def freeIndices (tbl : List LinkEntry) : List Nat :=
  (List.range tbl.length).filter (fun i => isFreeEntry (tbl.get? i))

/-- Modelled from the spec: free space as the count of pages marked free. -/
def countFree (tbl : List LinkEntry) : Nat := (freeIndices tbl).length

/-- Modelled from the spec: fuel-bounded chain walk from a page index,
following next links to the terminator; `none` signals a corrupt chain
(cycle, free page or out-of-range reference). -/
def walk (tbl : List LinkEntry) : Nat → Nat → Option (List Nat)
  | 0, _ => none
  | fuel+1, p =>
    match tbl.get? p with
    | some .term => some [p]
    | some (.next q) => (walk tbl fuel q).map (p :: ·)
    | _ => none

/-- Modelled from the spec: all chain walks are bounded by the total page
count to reject cycles and corruption defensively. -/
def chain (tbl : List LinkEntry) (head : Nat) : Option (List Nat) :=
  walk tbl tbl.length head

/-- Lays out the given pages as a linked chain in the table: each page
points at its successor and the last is marked as terminator. -/
def linkChain (tbl : List LinkEntry) : List Nat → List LinkEntry
  | [] => tbl
  | [p] => tbl.set p .term
  | p :: q :: rest => (linkChain tbl (q :: rest)).set p (.next q)

/-- Marks every listed page free in the link table. -/
def markFree (tbl : List LinkEntry) (ps : List Nat) : List LinkEntry :=
  ps.foldl (fun t p => t.set p .free) tbl

/-- Modelled from the spec: `allocateChain(k)` scans entries in ascending
index order collecting free pages; if fewer than `k` exist the operation
fails as a whole with no mutation; on success the collected pages are
linked in scan order with the last marked terminator. -/
def allocateChain (tbl : List LinkEntry) (k : Nat) :
    Except Err (List Nat × List LinkEntry) :=
  if (freeIndices tbl).length < k then .error .noSpace
  else .ok ((freeIndices tbl).take k, linkChain tbl ((freeIndices tbl).take k))

/-- Modelled from the spec: `shrinkChain(head, keep)` walks to the keep-th
page, converts it to a terminator, and marks every subsequent page free. -/
def shrinkChain (tbl : List LinkEntry) (head keep : Nat) :
    Except Err (List LinkEntry) :=
  match chain tbl head with
  | none => .error .structural
  | some ps =>
    .ok ((markFree tbl (ps.drop keep)).set ((ps.take keep).getLastD 0) .term)

/-- Modelled from the spec: `releaseChain(head)` walks the entire chain
marking every page free. -/
def releaseChain (tbl : List LinkEntry) (head : Nat) :
    Except Err (List LinkEntry) :=
  match chain tbl head with
  | none => .error .structural
  | some ps => .ok (markFree tbl ps)

/-! ## Note (directory) table (spec sections 3 and 4.4) -/

/-- Modelled from the spec: file names are flat character strings (bounded
base plus bounded extension, no further path structure). -/
abbrev Name := List Char

/-- Modelled from the spec: the literal root name "." denotes the table
itself. -/
def rootName : Name := ['.']

/-- Modelled from the spec: a note entry holds a name and the index of the
first page of the file's chain; a slot is either empty or used. -/
structure Note where
  name : Name
  head : Nat
deriving DecidableEq, Repr

/-- Modelled from the spec: the used entries of the note table in
table-slot order. -/
def usedNotes (notes : List (Option Note)) : List Note := notes.filterMap id

/-- Finds the first used note entry with exactly the given name. -/
def findNote : List (Option Note) → Name → Option Note
  | [], _ => none
  | some nt :: rest, name =>
    if nt.name = name then some nt else findNote rest name
  | none :: rest, name => findNote rest name

/-- Modelled from the spec: create allocates a first empty table slot;
returns the table with the entry written there, or `none` if no slot is
empty. -/
def insertNote : List (Option Note) → Note → Option (List (Option Note))
  | [], _ => none
  | none :: rest, nt => some (some nt :: rest)
  | some x :: rest, nt => (insertNote rest nt).map (some x :: ·)

/-- Clears the first used slot carrying the given name, returning the
removed entry and the table with that slot emptied. -/
def removeNote : List (Option Note) → Name → Option (Note × List (Option Note))
  | [], _ => none
  | some nt :: rest, name =>
    if nt.name = name then some (nt, none :: rest)
    else (removeNote rest name).map (fun r => (r.1, some nt :: r.2))
  | none :: rest, name =>
    (removeNote rest name).map (fun r => (r.1, none :: r.2))

/-- Modelled from the spec: names containing a path separator, or the
empty name, are malformed. -/
def validName (name : Name) : Bool := name ≠ [] && ¬ name.contains '/'

/-- Modelled from the spec: a name is split into a base part and an
extension part at the last dot; a name without a dot is all base. -/
def splitLastDot : Name → Option (Name × Name)
  | [] => none
  | c :: rest =>
    match splitLastDot rest with
    | some (b, e) => some (c :: b, e)
    | none => if c = '.' then some ([], rest) else none

/-- Modelled from the spec: base and extension of a name (base maximum 16
characters, extension maximum 4, per the test suite). -/
def splitName (name : Name) : Name × Name :=
  match splitLastDot name with
  | some (b, e) => (b, e)
  | none => (name, [])

/-- Modelled from the spec: maximum length of the base part of a name. -/
def maxBase : Nat := 16

/-- Modelled from the spec: maximum length of the extension of a name. -/
def maxExt : Nat := 4

/-! ## Filesystem state (spec sections 3 and 4.6) -/

/-- Modelled from the spec: the filesystem aggregate owns the live link
table, the note table and the page-indexed data region. -/
structure FsState where
  inode : List LinkEntry
  notes : List (Option Note)
  pages : List (List Nat)
deriving DecidableEq, Repr

/-- Modelled from the spec: `root()` lists all used entries in table-slot
order. -/
def root (s : FsState) : List Note := usedNotes s.notes

/-- Modelled from the spec: a file's size is its chain's page count times
the page size. -/
def fileSize (s : FsState) (nt : Note) : Nat :=
  ((chain s.inode nt.head).getD []).length * pageSize

/-- Modelled from the spec: free bytes of the medium, as observed by the
test suite (free page count times page size). -/
def freeBytes (s : FsState) : Nat := countFree s.inode * pageSize

/-- Modelled from the spec: the medium's total data capacity in bytes. -/
def totalCapacity (s : FsState) : Nat := s.inode.length * pageSize

/-- Modelled from the spec: `find(name)` validates the name (empty or
separator-containing names fail with InvalidName, the root name is not a
storable file), then matches exactly and case-sensitively. -/
def findE (s : FsState) (name : Name) : Except Err Note :=
  if ¬ validName name then .error .invalid
  else if name = rootName then .error .isDir
  else
    match findNote s.notes name with
    | some nt => .ok nt
    | none => .error .notExist

/-- Result of opening a name: either the root directory or a file entry. -/
inductive OpenResult where
  | rootDir
  | file (nt : Note)
deriving DecidableEq, Repr

/-- Modelled from the spec: open accepts the literal root name as the
table itself and otherwise resolves the name like `find`. -/
def fsOpen (s : FsState) (name : Name) : Except Err OpenResult :=
  if name = rootName then .ok .rootDir
  else (findE s name).map .file

/-! ## Byte-level access through chains (spec section 4.5) -/

/-- Reads the byte at a logical file position through the chain: page
`pos / pageSize` of the chain, byte `pos % pageSize` within it. -/
def byteAt (pages : List (List Nat)) (ps : List Nat) (pos : Nat) : Option Nat :=
  match ps.get? (pos / pageSize) with
  | none => none
  | some pg => (pages.get? pg).bind (fun page => page.get? (pos % pageSize))

/-- Modelled from the spec: positioned read; copies as many bytes as are
available between the offset and the end of the allocated chain. -/
def readAt (s : FsState) (name : Name) (off len : Nat) :
    Except Err (List Nat) :=
  match findE s name with
  | .error e => .error e
  | .ok nt =>
    match chain s.inode nt.head with
    | none => .error .structural
    | some ps =>
      let avail := min len (ps.length * pageSize - off)
      .ok ((List.range avail).map (fun i => (byteAt s.pages ps (off + i)).getD 0))

/-- A page filled with zero bytes. -/
def zeroPage : List Nat := List.replicate pageSize 0

/-- Modelled from the spec: newly allocated pages are zero-filled. -/
def zeroPages (pages : List (List Nat)) : List Nat → List (List Nat)
  | [] => pages
  | p :: rest => zeroPages (pages.set p zeroPage) rest

/-- Writes one byte at a logical position of a chain, through to the
backing pages. -/
def setByteInPages (pages : List (List Nat)) (ps : List Nat) (pos : Nat)
    (b : Nat) : List (List Nat) :=
  match ps.get? (pos / pageSize) with
  | none => pages
  | some pg => pages.set pg ((pages.getD pg []).set (pos % pageSize) b)

/-- Writes a buffer byte-by-byte at consecutive logical positions of a
chain. -/
def writeBytes (pages : List (List Nat)) (ps : List Nat) (off : Nat) :
    List Nat → List (List Nat)
  | [] => pages
  | b :: rest => writeBytes (setByteInPages pages ps off b) ps (off + 1) rest

/-- Modelled from the spec: required page count of a byte size is its
ceiling division by the page size, minimum one page. -/
def requiredPages (bytes : Nat) : Nat :=
  max 1 ((bytes + pageSize - 1) / pageSize)

/-- Modelled from the spec: growth of a file's chain to a required page
count: allocate the extra pages (atomic failure), splice them after the
former terminator and zero-fill them. Returns the grown chain. -/
def growFile (s : FsState) (ps : List Nat) (required : Nat) :
    Except Err (List Nat × FsState) :=
  match allocateChain s.inode (required - ps.length) with
  | .error e => .error e
  | .ok (newps, tbl2) =>
    if newps = [] then .ok (ps, s)
    else
      .ok (ps ++ newps,
           { s with inode := tbl2.set (ps.getLastD 0) (.next (newps.headD 0)),
                    pages := zeroPages s.pages newps })

/-! ## Mount-level operations (spec sections 4.4 to 4.6) -/

/-- Modelled from the spec: `create(name)` validates the name, splits it
into base and extension (each bounded), rejects duplicates, then allocates
a first empty slot and a one-page chain, writing the entry used. -/
def create (s : FsState) (name : Name) : (Except Err Note) × FsState :=
  if name = [] ∨ name.contains '/' then (.error .notExist, s)
  else if name = rootName then (.error .isDir, s)
  else if (splitName name).1.length > maxBase ∨ (splitName name).2.length > maxExt then
    (.error .nameTooLong, s)
  else
    match findNote s.notes name with
    | some _ => (.error .exist, s)
    | none =>
      match allocateChain s.inode 1 with
      | .error e => (.error e, s)
      | .ok (ps, tbl2) =>
        match ps with
        | [] => (.error .noSpace, s)
        | p :: _ =>
          match insertNote s.notes ⟨name, p⟩ with
          | none => (.error .noSpace, s)
          | some notes2 =>
            (.ok ⟨name, p⟩,
             { inode := tbl2, notes := notes2, pages := zeroPages s.pages [p] })

/-- Modelled from the spec: `remove(name)` rejects the root with IsDir,
releases the entry's full chain and clears the entry's used flag. -/
def remove (s : FsState) (name : Name) : (Except Err Unit) × FsState :=
  match findE s name with
  | .error e => (.error e, s)
  | .ok nt =>
    match releaseChain s.inode nt.head with
    | .error e => (.error e, s)
    | .ok tbl2 =>
      match removeNote s.notes name with
      | none => (.error .notExist, s)
      | some r => (.ok (), { s with inode := tbl2, notes := r.2 })

/-- Modelled from the spec: `truncate(name, size)` rejects a negative size
with InvalidArgument before any existence check, rounds the size up to
whole pages (minimum one), is a no-op on equal page count, grows with
zero-fill (atomic on CapacityError) and shrinks by freeing trailing
pages. -/
def truncate (s : FsState) (name : Name) (sz : Int) :
    (Except Err Unit) × FsState :=
  if sz < 0 then (.error .invalid, s)
  else
    match findE s name with
    | .error e => (.error e, s)
    | .ok nt =>
      match chain s.inode nt.head with
      | none => (.error .structural, s)
      | some ps =>
        let required := requiredPages sz.toNat
        if required = ps.length then (.ok (), s)
        else if ps.length < required then
          match growFile s ps required with
          | .error e => (.error e, s)
          | .ok _r => (.ok (), (_r).2)
        else
          match shrinkChain s.inode nt.head required with
          | .error e => (.error e, s)
          | .ok tbl2 => (.ok (), { s with inode := tbl2 })

/-- Modelled from the spec: `writeAt(buffer, offset)` grows the file first
when the write extends past the current size (aborting entirely on
CapacityError), then writes page-by-page through the chain. -/
def writeAt (s : FsState) (name : Name) (buf : List Nat) (off : Nat) :
    (Except Err Nat) × FsState :=
  match findE s name with
  | .error e => (.error e, s)
  | .ok nt =>
    match chain s.inode nt.head with
    | none => (.error .structural, s)
    | some ps =>
      if off + buf.length ≤ ps.length * pageSize then
        (.ok buf.length, { s with pages := writeBytes s.pages ps off buf })
      else
        match growFile s ps (requiredPages (off + buf.length)) with
        | .error e => (.error e, s)
        | .ok r =>
          (.ok buf.length, { r.2 with pages := writeBytes r.2.pages r.1 off buf })

/-! ## Structural mount (spec sections 4.2 and 6) -/

/-- Modelled from the spec: a link-table byte decodes to a free marker, a
terminator, or a next-page index. -/
def decodeEntry (b : Nat) : LinkEntry :=
  if b = 0 then .free else if b = 1 then .term else .next (b - 2)

/-- Modelled from the spec: the link table region decodes entry by entry. -/
def decodeLinkTable (bytes : List Nat) : List LinkEntry := bytes.map decodeEntry

/-- Modelled from the spec: a medium stores the label as a redundancy
group of 4 checksummed copies, the link table as a redundancy group of 2
checksummed copies, and the note table and data region unprotected. -/
structure Medium where
  labelCopies : List Block
  linkCopies : List Block
  notes : List (Option Note)
  pages : List (List Nat)
deriving DecidableEq, Repr

/-- Modelled from the spec: `mount(store)` validates the label redundancy
group, then the link-table redundancy group — failure of either is fatal —
and accepts the note table as-is. The first validating copy (primary
preferred) becomes the live table. -/
def mount (m : Medium) : Except Err FsState :=
  match firstValid m.labelCopies with
  | none => .error .structural
  | some _lbl =>
    match firstValid m.linkCopies with
    | none => .error .structural
    | some lnk =>
      .ok { inode := decodeLinkTable lnk.data, notes := m.notes, pages := m.pages }

/-! ## Well-formedness of the allocator state -/

/-- Chains of all used note entries, in table-slot order. -/
def allChains (s : FsState) : List (List Nat) :=
  (root s).map (fun nt => (chain s.inode nt.head).getD [])

/-- Sum of the sizes of all files listed by `root`. -/
def sizeSum (s : FsState) : Nat :=
  ((root s).map (fun nt => fileSize s nt)).sum

/-- Modelled from the spec: page-ownership well-formedness: every used
entry's chain walk terminates, the chains and the free pages together
partition the page array, and the data region has one page-size block per
page. -/
def WF (s : FsState) : Prop :=
  (∀ nt ∈ root s, (chain s.inode nt.head).isSome = true)
  ∧ ((allChains s).flatten ++ freeIndices s.inode).Perm (List.range s.inode.length)
  ∧ s.pages.length = s.inode.length
  ∧ ∀ pg ∈ s.pages, pg.length = pageSize

instance (s : FsState) : Decidable (WF s) := by
  unfold WF
  infer_instance

/-- A mutating mount-level operation of the filesystem. -/
inductive FsOp where
  | createOp (name : Name)
  | removeOp (name : Name)
  | truncateOp (name : Name) (sz : Int)
  | writeOp (name : Name) (buf : List Nat) (off : Nat)

/-- State reached after one operation (error results leave the state as
the operation returned it, which the atomicity theorems show is the input
state). -/
def applyOp (s : FsState) : FsOp → FsState
  | .createOp n => (create s n).2
  | .removeOp n => (remove s n).2
  | .truncateOp n sz => (truncate s n sz).2
  | .writeOp n b o => (writeAt s n b o).2

/-- State reached after a sequence of operations. -/
def applyOps (s : FsState) (l : List FsOp) : FsState := l.foldl applyOp s

/-- Consecutively linked page list ending in a terminator: the structural
view of a chain laid out in the link table. -/
inductive IsChain (tbl : List LinkEntry) : List Nat → Prop
  | single {p : Nat} : tbl.get? p = some .term → IsChain tbl [p]
  | step {p q : Nat} {rest : List Nat} :
      tbl.get? p = some (.next q) → IsChain tbl (q :: rest) →
      IsChain tbl (p :: q :: rest)

/-! ## Redundancy-group damage (spec sections 7 and 8) -/

/-- Modelled from the spec: an undamaged redundancy group: at least one
copy, every copy validates, and all copies are identical. -/
def intactGroup : List Block → Bool
  | [] => false
  | b :: g => validates b && g.all (· == b)

/-- Pointwise damage relation between the copies of a group: every copy is
either unchanged or fails its checksum (a damaged copy is one the
validator rejects). -/
def damagedCopies : List Block → List Block → Bool
  | [], [] => true
  | b :: g, b2 :: g2 => (b2 == b || !validates b2) && damagedCopies g g2
  | _, _ => false

/-- Holds when at least one position of the group is unchanged, so the
damage touches only a proper subset of the copies. -/
def someUnchanged : List Block → List Block → Bool
  | b :: g, b2 :: g2 => b2 == b || someUnchanged g g2
  | _, _ => false

/-! ## Concrete states and media used as witnesses -/

/-- Four-page medium state: one file named "A" over pages 0 and 1, pages 2
and 3 free. -/
def sampleState : FsState :=
  { inode := [.next 1, .term, .free, .free]
  , notes := [some ⟨['A'], 0⟩, none]
  , pages := [zeroPage, zeroPage, zeroPage, zeroPage] }

/-- Link table of a single file covering all of an n-page medium. -/
def chainInode (n : Nat) : List LinkEntry :=
  (List.range n).map (fun i => if i + 1 = n then .term else .next (i + 1))

/-- Medium state holding one file of 28 pages (7168 bytes) named "A" whose
last page is filled with ones. -/
def state7168 : FsState :=
  { inode := chainInode 28
  , notes := [some ⟨['A'], 0⟩]
  , pages := List.replicate 27 zeroPage ++ [List.replicate pageSize 1] }

/-- A small valid label copy. -/
def sampleBlock : Block := ⟨[3, 4], checksum [3, 4]⟩

/-- A small valid link-table copy (decodes to one terminator page and one
free page). -/
def linkBlock : Block := ⟨[1, 0], checksum [1, 0]⟩

/-- An undamaged two-page medium. -/
def sampleMedium : Medium :=
  { labelCopies := List.replicate 4 sampleBlock
  , linkCopies := List.replicate 2 linkBlock
  , notes := [some ⟨['A'], 0⟩]
  , pages := [zeroPage, zeroPage] }

/-- The sample medium with the first label copy and the backup link-table
copy corrupted (their checksums no longer match). -/
def damagedMedium : Medium :=
  { sampleMedium with
      labelCopies := ⟨[9, 9], 0⟩ :: List.replicate 3 sampleBlock
    , linkCopies := [linkBlock, ⟨[2, 2], 0⟩] }

/-- The sample medium with every label copy corrupted. -/
def badMedium : Medium :=
  { sampleMedium with labelCopies := List.replicate 4 (⟨[9, 9], 0⟩ : Block) }

/-! ## Basic lemmas about the note table -/

theorem findNote_some (notes : List (Option Note)) (name : Name) (nt : Note)
    (h : findNote notes name = some nt) : nt.name = name ∧ nt ∈ usedNotes notes := by
  induction notes with
  | nil => simp [findNote] at h
  | cons o rest ih =>
    cases o with
    | none =>
      simp only [findNote] at h
      rcases ih h with ⟨h1, h2⟩
      exact ⟨h1, by simpa [usedNotes] using h2⟩
    | some x =>
      simp only [findNote] at h
      by_cases hx : x.name = name
      · simp only [hx, if_pos rfl] at h
        cases h
        exact ⟨hx, by simp [usedNotes]⟩
      · rw [if_neg hx] at h
        rcases ih h with ⟨h1, h2⟩
        exact ⟨h1, by simpa [usedNotes] using Or.inr h2⟩

theorem findNote_none (notes : List (Option Note)) (name : Name)
    (h : findNote notes name = none) : ∀ nt ∈ usedNotes notes, nt.name ≠ name := by
  induction notes with
  | nil => intro nt hnt; simp [usedNotes] at hnt
  | cons o rest ih =>
    cases o with
    | none =>
      simp only [findNote] at h
      intro nt hnt
      exact ih h nt (by simpa [usedNotes] using hnt)
    | some x =>
      simp only [findNote] at h
      by_cases hx : x.name = name
      · simp [hx] at h
      · rw [if_neg hx] at h
        intro nt hnt
        rcases (by simpa [usedNotes] using hnt : nt = x ∨ nt ∈ usedNotes rest) with
          rfl | hmem
        · exact hx
        · exact ih h nt hmem

/-! ## C10, C1, C9, C2, C3 -/

/-- C10: truncate with a negative size fails with InvalidArgument (state
untouched) no matter whether the file exists, and InvalidArgument is a
different error from NotFound, so NotFound is never returned for a
negative-size request. -/
theorem truncate_negative_size_invalid (s : FsState) (name : Name) (sz : Int)
    (h : sz < 0) :
    truncate s name sz = (.error .invalid, s) ∧ Err.invalid ≠ Err.notExist := by
  refine ⟨?_, by decide⟩
  unfold truncate
  rw [if_pos h]

/-- Witness for C10 at a concrete state holding no file named "N". -/
theorem truncate_negative_size_invalid_witness :
    truncate sampleState ['N'] (-1) = (.error .invalid, sampleState) ∧
      Err.invalid ≠ Err.notExist :=
  truncate_negative_size_invalid sampleState ['N'] (-1) (by decide)

/-- C1: mount succeeds iff every redundancy group (label and link table)
has at least one copy whose checksum validates; if some group has no
validating copy at all, mount fails with a StructuralError. -/
theorem mount_ok_iff_redundancy (m : Medium) :
    ((∃ fs, mount m = .ok fs) ↔
      ((∃ b ∈ m.labelCopies, validates b = true) ∧
        (∃ b ∈ m.linkCopies, validates b = true)))
    ∧ (¬ ((∃ b ∈ m.labelCopies, validates b = true) ∧
        (∃ b ∈ m.linkCopies, validates b = true)) →
      mount m = .error .structural) := by
  unfold mount firstValid
  cases hL : m.labelCopies.find? validates with
  | none =>
    have hnoL : ∀ b ∈ m.labelCopies, ¬ validates b = true :=
      fun b hb => by simpa using List.find?_eq_none.mp hL b hb
    constructor
    · constructor
      · rintro ⟨fs, hfs⟩; simp at hfs
      · rintro ⟨⟨b, hb, hv⟩, _⟩; exact absurd hv (hnoL b hb)
    · intro _; rfl
  | some b =>
    have hbv : validates b = true := List.find?_some hL
    have hbm : b ∈ m.labelCopies := List.mem_of_find?_eq_some hL
    cases hI : m.linkCopies.find? validates with
    | none =>
      have hnoI : ∀ c ∈ m.linkCopies, ¬ validates c = true :=
        fun c hc => by simpa using List.find?_eq_none.mp hI c hc
      constructor
      · constructor
        · rintro ⟨fs, hfs⟩; simp at hfs
        · rintro ⟨_, ⟨c, hc, hv⟩⟩; exact absurd hv (hnoI c hc)
      · intro _; rfl
    | some c =>
      have hcv : validates c = true := List.find?_some hI
      have hcm : c ∈ m.linkCopies := List.mem_of_find?_eq_some hI
      constructor
      · constructor
        · intro _; exact ⟨⟨b, hbm, hbv⟩, ⟨c, hcm, hcv⟩⟩
        · intro _; exact ⟨_, rfl⟩
      · intro hcontra; exact absurd ⟨⟨b, hbm, hbv⟩, ⟨c, hcm, hcv⟩⟩ hcontra

/-- Witness for C1: a medium whose label copies are all damaged mounts
with a StructuralError. -/
theorem mount_ok_iff_redundancy_witness :
    mount badMedium = .error .structural :=
  (mount_ok_iff_redundancy badMedium).2 (by decide)

/-- C9: a lookup of the empty name or a name containing a path separator
fails with InvalidName, which is distinct from NotFound; a well-formed
name absent from the table fails with NotFound; matching is exact and
case-sensitive: a found entry bears precisely the requested name, and an
entry bearing the requested name is found. -/
theorem lookup_name_validation (s : FsState) (name : Name) :
    ((name = [] ∨ name.contains '/' = true) →
      findE s name = .error .invalid ∧ fsOpen s name = .error .invalid)
    ∧ (validName name = true → name ≠ rootName → findNote s.notes name = none →
      findE s name = .error .notExist ∧ fsOpen s name = .error .notExist)
    ∧ (∀ nt, findE s name = .ok nt → nt.name = name ∧ nt ∈ usedNotes s.notes)
    ∧ (validName name = true → name ≠ rootName →
      (∃ nt ∈ usedNotes s.notes, nt.name = name) →
      ∃ nt, findE s name = .ok nt ∧ nt.name = name)
    ∧ Err.invalid ≠ Err.notExist := by
  refine ⟨?_, ?_, ?_, ?_, by decide⟩
  · intro hbad
    have hinv : ¬ validName name = true := by
      intro hv
      simp only [validName, Bool.and_eq_true, decide_eq_true_eq] at hv
      rcases hbad with rfl | hsep
      · exact hv.1 rfl
      · exact hv.2 hsep
    have hroot : name ≠ rootName := by
      rintro rfl
      rcases hbad with h | h
      · cases h
      · exact absurd h (by decide)
    constructor
    · unfold findE; rw [if_pos hinv]
    · unfold fsOpen
      rw [if_neg hroot]
      unfold findE
      rw [if_pos hinv]
      rfl
  · intro hval hroot hnone
    constructor
    · unfold findE
      rw [if_neg (by simp [hval]), if_neg hroot, hnone]
    · unfold fsOpen
      rw [if_neg hroot]
      unfold findE
      rw [if_neg (by simp [hval]), if_neg hroot, hnone]
      rfl
  · intro nt h
    unfold findE at h
    by_cases hval : validName name = true
    · rw [if_neg (by simp [hval])] at h
      by_cases hroot : name = rootName
      · rw [if_pos hroot] at h; cases h
      · rw [if_neg hroot] at h
        cases hfind : findNote s.notes name with
        | none => rw [hfind] at h; cases h
        | some nt2 =>
          rw [hfind] at h
          cases h
          exact findNote_some s.notes name nt hfind
    · rw [if_pos (by simpa using hval)] at h; cases h
  · intro hval hroot ⟨nt, hmem, hname⟩
    unfold findE
    rw [if_neg (by simp [hval]), if_neg hroot]
    cases hfind : findNote s.notes name with
    | none => exact absurd hname (findNote_none s.notes name hfind nt hmem)
    | some nt2 =>
      exact ⟨nt2, rfl, (findNote_some s.notes name nt2 hfind).1⟩

/-- Witness for C9 at concrete inputs: a separator-containing name is
invalid, a well-formed absent name is not found, and the present name "A"
is found exactly. -/
theorem lookup_name_validation_witness :
    (findE sampleState ['/', 'A'] = .error .invalid ∧
      fsOpen sampleState ['/', 'A'] = .error .invalid) ∧
    (findE sampleState ['B'] = .error .notExist ∧
      fsOpen sampleState ['B'] = .error .notExist) ∧
    (∃ nt, findE sampleState ['A'] = .ok nt ∧ nt.name = ['A']) :=
  ⟨(lookup_name_validation sampleState ['/', 'A']).1 (Or.inr (by decide)),
   (lookup_name_validation sampleState ['B']).2.1 (by decide) (by decide) (by decide),
   (lookup_name_validation sampleState ['A']).2.2.2.1 (by decide) (by decide)
     ⟨⟨['A'], 0⟩, by decide, rfl⟩⟩

theorem firstValid_of_damaged (b : Block) (g g2 : List Block)
    (hall : ∀ x ∈ g, x = b) (hv : validates b = true)
    (hd : damagedCopies g g2 = true) (hu : someUnchanged g g2 = true) :
    firstValid g2 = some b := by
  induction g generalizing g2 with
  | nil => cases g2 <;> simp [someUnchanged] at hu
  | cons x g ih =>
    cases g2 with
    | nil => simp [damagedCopies] at hd
    | cons y g2 =>
      have hx : x = b := hall x (by simp)
      simp only [damagedCopies, Bool.and_eq_true, Bool.or_eq_true] at hd
      obtain ⟨hy, hrest⟩ := hd
      by_cases hvy : validates y = true
      · have hyb : y = b := by
          rcases hy with h | h
          · exact (eq_of_beq h).trans hx
          · rw [hvy] at h; cases h
        subst hyb
        simp [firstValid, List.find?_cons_of_pos, hvy]
      · simp only [someUnchanged, Bool.or_eq_true] at hu
        rcases hu with h | h
        · rw [eq_of_beq h, hx] at hvy; exact absurd hv hvy
        · have hvy2 : validates y = false := by simpa using hvy
          have := ih g2 (fun z hz => hall z (List.mem_cons_of_mem x hz)) hrest h
          simpa [firstValid, List.find?_cons_of_neg, hvy2] using this

/-- C2: damaging only a proper subset of a redundancy group of an
undamaged medium (any label copies but not all four, any link-table copy
but not both) changes neither the mount result nor the bytes returned by
any subsequent file read. -/
theorem damaged_subset_noninterference (m m2 : Medium)
    (hL : intactGroup m.labelCopies = true)
    (hI : intactGroup m.linkCopies = true)
    (dL : damagedCopies m.labelCopies m2.labelCopies = true)
    (uL : someUnchanged m.labelCopies m2.labelCopies = true)
    (dI : damagedCopies m.linkCopies m2.linkCopies = true)
    (uI : someUnchanged m.linkCopies m2.linkCopies = true)
    (hn : m2.notes = m.notes) (hp : m2.pages = m.pages) :
    mount m2 = mount m ∧
    ∀ fs fs2 name off len, mount m = .ok fs → mount m2 = .ok fs2 →
      readAt fs2 name off len = readAt fs name off len := by
  have hmount : mount m2 = mount m := by
    cases hLc : m.labelCopies with
    | nil => rw [hLc] at hL; cases hL
    | cons b g =>
      cases hIc : m.linkCopies with
      | nil => rw [hIc] at hI; cases hI
      | cons c h =>
        rw [hLc] at hL dL uL
        rw [hIc] at hI dI uI
        simp only [intactGroup, Bool.and_eq_true, List.all_eq_true] at hL hI
        have hallb : ∀ x ∈ b :: g, x = b := by
          intro x hx
          rcases List.mem_cons.mp hx with rfl | hx
          · rfl
          · exact eq_of_beq (hL.2 x hx)
        have hallc : ∀ x ∈ c :: h, x = c := by
          intro x hx
          rcases List.mem_cons.mp hx with rfl | hx
          · rfl
          · exact eq_of_beq (hI.2 x hx)
        have h1 : firstValid m2.labelCopies = some b :=
          firstValid_of_damaged b _ _ hallb hL.1 dL uL
        have h2 : firstValid m2.linkCopies = some c :=
          firstValid_of_damaged c _ _ hallc hI.1 dI uI
        have h3 : firstValid m.labelCopies = some b := by
          rw [hLc]; simp [firstValid, List.find?_cons_of_pos, hL.1]
        have h4 : firstValid m.linkCopies = some c := by
          rw [hIc]; simp [firstValid, List.find?_cons_of_pos, hI.1]
        unfold mount
        rw [h1, h2, h3, h4, hn, hp]
  refine ⟨hmount, ?_⟩
  intro fs fs2 name off len h1 h2
  rw [hmount, h1] at h2
  cases h2
  rfl

/-- Witness for C2: the sample medium with its first label copy and its
backup link-table copy damaged mounts identically. -/
theorem damaged_subset_noninterference_witness :
    mount damagedMedium = mount sampleMedium ∧
    ∀ fs fs2 name off len, mount sampleMedium = .ok fs →
      mount damagedMedium = .ok fs2 →
      readAt fs2 name off len = readAt fs name off len :=
  damaged_subset_noninterference sampleMedium damagedMedium (by decide)
    (by decide) (by decide) (by decide) (by decide) (by decide) rfl rfl

/-- C3: every allocation path is atomic on CapacityError: a writeAt or
truncate that fails leaves the entire previously-existing state untouched
(no bytes written, no size change, free count unchanged), and a growth
request exceeding the free pages fails precisely with CapacityError. -/
theorem capacity_failure_atomic :
    (∀ s name buf off e, (writeAt s name buf off).1 = .error e →
        (writeAt s name buf off).2 = s)
    ∧ (∀ s name sz e, (truncate s name sz).1 = .error e →
        (truncate s name sz).2 = s)
    ∧ (∀ s name buf off nt ps, findE s name = .ok nt →
        chain s.inode nt.head = some ps →
        ps.length * pageSize < off + buf.length →
        countFree s.inode < requiredPages (off + buf.length) - ps.length →
        writeAt s name buf off = (.error .noSpace, s))
    ∧ (∀ s name sz nt ps, findE s name = .ok nt →
        chain s.inode nt.head = some ps →
        ps.length < requiredPages sz.toNat →
        countFree s.inode < requiredPages sz.toNat - ps.length →
        0 ≤ sz →
        truncate s name sz = (.error .noSpace, s)) := by
  refine ⟨?_, ?_, ?_, ?_⟩
  · intro s name buf off e h
    unfold writeAt at h ⊢
    cases hf : findE s name with
    | error e2 => simp [hf]
    | ok nt =>
      simp only [hf] at h ⊢
      cases hc : chain s.inode nt.head with
      | none => simp [hc]
      | some ps =>
        simp only [hc] at h ⊢
        by_cases hle : off + buf.length ≤ ps.length * pageSize
        · rw [if_pos hle] at h; cases h
        · rw [if_neg hle] at h ⊢
          cases hg : growFile s ps (requiredPages (off + buf.length)) with
          | error e2 => simp [hg]
          | ok r => simp [hg] at h
  · intro s name sz e h
    unfold truncate at h ⊢
    by_cases hneg : sz < 0
    · rw [if_pos hneg]
    · rw [if_neg hneg] at h ⊢
      cases hf : findE s name with
      | error e2 => simp [hf]
      | ok nt =>
        simp only [hf] at h ⊢
        cases hc : chain s.inode nt.head with
        | none => simp [hc]
        | some ps =>
          simp only [hc] at h ⊢
          by_cases heq : requiredPages sz.toNat = ps.length
          · rw [if_pos heq] at h; cases h
          · rw [if_neg heq] at h ⊢
            by_cases hlt : ps.length < requiredPages sz.toNat
            · rw [if_pos hlt] at h ⊢
              cases hg : growFile s ps (requiredPages sz.toNat) with
              | error e2 => simp [hg]
              | ok r => simp [hg] at h
            · rw [if_neg hlt] at h ⊢
              cases hs : shrinkChain s.inode nt.head (requiredPages sz.toNat) with
              | error e2 => simp [hs]
              | ok tbl2 => simp [hs] at h
  · intro s name buf off nt ps hf hc hlen hfree
    have halloc : allocateChain s.inode
        (requiredPages (off + buf.length) - ps.length) = .error .noSpace := by
      unfold allocateChain
      exact if_pos hfree
    unfold writeAt
    simp only [hf, hc]
    rw [if_neg (by omega)]
    unfold growFile
    simp only [halloc]
  · intro s name sz nt ps hf hc hlt hfree hpos
    have halloc : allocateChain s.inode
        (requiredPages sz.toNat - ps.length) = .error .noSpace := by
      unfold allocateChain
      exact if_pos hfree
    unfold truncate
    rw [if_neg (by omega)]
    simp only [hf, hc]
    rw [if_neg (by omega), if_pos hlt]
    unfold growFile
    simp only [halloc]

/-- Witness for C3: on the four-page sample state, writing one byte at
offset 2000 and truncating to 2000 bytes both need six extra pages with
only two free, fail with CapacityError and leave the state untouched. -/
theorem capacity_failure_atomic_witness :
    writeAt sampleState ['A'] [7] 2000 = (.error .noSpace, sampleState) ∧
    truncate sampleState ['A'] 2000 = (.error .noSpace, sampleState) :=
  ⟨capacity_failure_atomic.2.2.1 sampleState ['A'] [7] 2000 ⟨['A'], 0⟩ [0, 1]
      rfl (by decide) (by decide) (by decide),
   capacity_failure_atomic.2.2.2 sampleState ['A'] 2000 ⟨['A'], 0⟩ [0, 1]
      rfl (by decide) (by decide) (by decide) (by decide)⟩

/-! ## Lemmas about free indices under single-entry updates -/

theorem filter_perm_cons_of_flip (l : List Nat) (p : Nat) (f g : Nat → Bool)
    (hl : l.Nodup) (hp : p ∈ l) (hf : f p = false) (hg : g p = true)
    (hagree : ∀ q, q ≠ p → f q = g q) :
    (l.filter g).Perm (p :: l.filter f) := by
  induction l with
  | nil => cases hp
  | cons a l ih =>
    rcases List.mem_cons.mp hp with rfl | hmem
    · have hpl : p ∉ l := (List.nodup_cons.mp hl).1
      have hfg : l.filter g = l.filter f := by
        apply List.filter_congr
        intro q hq
        exact (hagree q (fun h => hpl (h ▸ hq))).symm
      have h1 : List.filter g (p :: l) = p :: List.filter g l := by
        simp [List.filter_cons, hg]
      have h2 : List.filter f (p :: l) = List.filter f l := by
        simp [List.filter_cons, hf]
      rw [h1, h2, hfg]
    · have ha : a ≠ p := fun h => (List.nodup_cons.mp hl).1 (h ▸ hmem)
      have hfa : f a = g a := hagree a ha
      have ihx := ih (List.nodup_cons.mp hl).2 hmem
      cases hga : g a with
      | true =>
        have h1 : List.filter g (a :: l) = a :: List.filter g l := by
          simp [List.filter_cons, hga]
        have h2 : List.filter f (a :: l) = a :: List.filter f l := by
          simp [List.filter_cons, hfa.trans hga]
        rw [h1, h2]
        exact (ihx.cons a).trans (List.Perm.swap p a _)
      | false =>
        have h1 : List.filter g (a :: l) = List.filter g l := by
          simp [List.filter_cons, hga]
        have h2 : List.filter f (a :: l) = List.filter f l := by
          simp [List.filter_cons, hfa.trans hga]
        rw [h1, h2]
        exact ihx

theorem mem_freeIndices (tbl : List LinkEntry) (p : Nat) :
    p ∈ freeIndices tbl ↔ p < tbl.length ∧ isFreeEntry (tbl.get? p) = true := by
  unfold freeIndices
  rw [List.mem_filter, List.mem_range]

theorem freeIndices_set_free (tbl : List LinkEntry) (p : Nat)
    (hp : p < tbl.length) (hnf : isFreeEntry (tbl.get? p) = false) :
    (freeIndices (tbl.set p .free)).Perm (p :: freeIndices tbl) := by
  unfold freeIndices
  rw [List.length_set]
  apply filter_perm_cons_of_flip _ _ _ _ (List.nodup_range _)
    (List.mem_range.mpr hp) hnf
  · rw [List.get?_set_eq_of_lt _ hp]; rfl
  · intro q hq
    rw [List.get?_set_ne _ _ (fun h => hq h.symm)]

theorem freeIndices_set_nonfree (tbl : List LinkEntry) (p : Nat) (e : LinkEntry)
    (hp : p < tbl.length) (hfp : isFreeEntry (tbl.get? p) = true)
    (he : isFreeEntry (some e) = false) :
    (freeIndices tbl).Perm (p :: freeIndices (tbl.set p e)) := by
  unfold freeIndices
  rw [List.length_set]
  apply filter_perm_cons_of_flip _ _ _ _ (List.nodup_range _)
    (List.mem_range.mpr hp)
  · rw [List.get?_set_eq_of_lt _ hp]; exact he
  · exact hfp
  · intro q hq
    rw [List.get?_set_ne _ _ (fun h => hq h.symm)]

theorem freeIndices_set_eq (tbl : List LinkEntry) (p : Nat) (e : LinkEntry)
    (hfp : isFreeEntry (tbl.get? p) = false) (he : isFreeEntry (some e) = false) :
    freeIndices (tbl.set p e) = freeIndices tbl := by
  unfold freeIndices
  rw [List.length_set]
  apply List.filter_congr
  intro q _
  by_cases hq : q = p
  · subst hq
    by_cases hlt : q < tbl.length
    · rw [List.get?_set_eq_of_lt _ hlt, he, hfp]
    · rw [List.set_eq_of_length_le (by omega)]
  · rw [List.get?_set_ne _ _ (fun h => hq h.symm)]

theorem walk_of_term (tbl : List LinkEntry) (p fuel : Nat)
    (h : tbl.get? p = some .term) (hf : 0 < fuel) :
    walk tbl fuel p = some [p] := by
  cases fuel with
  | zero => omega
  | succ n => unfold walk; rw [h]

/-! ## C7: effect of a successful create -/

theorem insertNote_findNote (notes : List (Option Note)) (notes2 : List (Option Note))
    (nt : Note) (hi : insertNote notes nt = some notes2)
    (hn : findNote notes nt.name = none) :
    findNote notes2 nt.name = some nt := by
  induction notes generalizing notes2 with
  | nil => simp [insertNote] at hi
  | cons o rest ih =>
    cases o with
    | none =>
      simp only [insertNote] at hi
      cases hi
      simp [findNote]
    | some x =>
      simp only [insertNote, Option.map_eq_some'] at hi
      obtain ⟨l, hl, rfl⟩ := hi
      simp only [findNote] at hn ⊢
      by_cases hx : x.name = nt.name
      · rw [if_pos hx] at hn; cases hn
      · rw [if_neg hx] at hn ⊢
        exact ih l hl hn

/-- C7: a successful create writes a used entry retrievable under the new
name, whose chain is a fresh single-page chain (so the new file occupies
at least one page, of size exactly one page), and the free page count
drops by exactly one. -/
theorem create_allocates_one_page (s : FsState) (name : Name) (nt : Note)
    (s1 : FsState) (h : create s name = (.ok nt, s1)) :
    findNote s1.notes name = some nt ∧
    chain s1.inode nt.head = some [nt.head] ∧
    fileSize s1 nt = pageSize ∧
    countFree s1.inode + 1 = countFree s.inode := by
  unfold create at h
  by_cases h1 : name = [] ∨ name.contains '/' = true
  · rw [if_pos (by simpa using h1)] at h; cases h
  · rw [if_neg (by simpa using h1)] at h
    by_cases h2 : name = rootName
    · rw [if_pos h2] at h; cases h
    · rw [if_neg h2] at h
      by_cases h3 : (splitName name).1.length > maxBase ∨ (splitName name).2.length > maxExt
      · rw [if_pos h3] at h; cases h
      · rw [if_neg h3] at h
        cases hfn : findNote s.notes name with
        | some x => rw [hfn] at h; cases h
        | none =>
          simp only [hfn] at h
          cases halloc : allocateChain s.inode 1 with
          | error e => simp only [halloc] at h; cases h
          | ok r =>
            simp only [halloc] at h
            obtain ⟨ps, tbl2⟩ := r
            cases hps : ps with
            | nil => simp only [hps] at h; cases h
            | cons p rest =>
              simp only [hps] at h
              cases hins : insertNote s.notes ⟨name, p⟩ with
              | none => simp only [hins] at h; cases h
              | some notes2 =>
                simp only [hins] at h
                injection h with h5 h6
                injection h5 with h7
                subst h6
                subst h7
                unfold allocateChain at halloc
                by_cases hlen : (freeIndices s.inode).length < 1
                · rw [if_pos hlen] at halloc; cases halloc
                · rw [if_neg hlen] at halloc
                  injection halloc with halloc2
                  have htake : (freeIndices s.inode).take 1 = p :: rest := by
                    have := congrArg Prod.fst halloc2
                    simpa [hps] using this
                  have htbl : tbl2 = linkChain s.inode ((freeIndices s.inode).take 1) := by
                    have := congrArg Prod.snd halloc2
                    simpa using this.symm
                  have hrest : rest = [] := by
                    have hle : (p :: rest).length ≤ 1 := by
                      rw [← htake]; exact List.length_take_le 1 _
                    simp only [List.length_cons] at hle
                    exact List.length_eq_zero.mp (by omega)
                  subst hrest
                  rw [htake] at htbl
                  have hpmem : p ∈ freeIndices s.inode :=
                    List.take_subset 1 _ (htake ▸ List.mem_cons_self p [])
                  obtain ⟨hplt, hpfree⟩ := (mem_freeIndices s.inode p).mp hpmem
                  have htbl2 : tbl2 = s.inode.set p .term := htbl
                  have hchain : chain tbl2 p = some [p] := by
                    unfold chain
                    rw [htbl2, List.length_set]
                    exact walk_of_term _ _ _
                      (by rw [List.get?_set_eq_of_lt _ hplt]) (by omega)
                  refine ⟨?_, ?_, ?_, ?_⟩
                  · exact insertNote_findNote s.notes notes2 ⟨name, p⟩ hins hfn
                  · exact hchain
                  · unfold fileSize
                    rw [hchain]
                    simp [pageSize]
                  · show countFree tbl2 + 1 = countFree s.inode
                    have hperm := freeIndices_set_nonfree s.inode p .term hplt hpfree rfl
                    have := hperm.length_eq
                    simp only [List.length_cons] at this
                    unfold countFree
                    rw [← htbl2] at this
                    omega

/-- Witness for C7: creating "B" on the sample state allocates the first
free page (page 2) as a one-page chain and drops the free count by one. -/
theorem create_allocates_one_page_witness :
    findNote (create sampleState ['B']).2.notes ['B'] = some ⟨['B'], 2⟩ ∧
    chain (create sampleState ['B']).2.inode 2 = some [2] ∧
    fileSize (create sampleState ['B']).2 ⟨['B'], 2⟩ = pageSize ∧
    countFree (create sampleState ['B']).2.inode + 1 = countFree sampleState.inode :=
  create_allocates_one_page sampleState ['B'] ⟨['B'], 2⟩
    (create sampleState ['B']).2 rfl

/-! ## Walk lemmas: termination, determinism, nodup, entry facts -/

theorem get?_some_lt {α : Type} (l : List α) (n : Nat) (a : α)
    (h : l.get? n = some a) : n < l.length := by
  by_contra hn
  rw [List.get?_eq_none.mpr (by omega)] at h
  cases h

theorem walk_mono (tbl : List LinkEntry) (fuel : Nat) :
    ∀ p ps, walk tbl fuel p = some ps → walk tbl (fuel + 1) p = some ps := by
  induction fuel with
  | zero => intro p ps h; simp [walk] at h
  | succ n ih =>
    intro p ps h
    unfold walk at h ⊢
    cases hg : tbl.get? p with
    | none => simp only [hg] at h; cases h
    | some e =>
      cases e with
      | free => simp only [hg] at h; cases h
      | term => simp only [hg] at h ⊢; exact h
      | next q =>
        simp only [hg] at h ⊢
        cases hw : walk tbl n q with
        | none => rw [hw] at h; cases h
        | some rest => rw [hw] at h; rw [ih q rest hw]; exact h

theorem walk_mono_le (tbl : List LinkEntry) (f f' p : Nat) (ps : List Nat)
    (hle : f ≤ f') (h : walk tbl f p = some ps) : walk tbl f' p = some ps := by
  induction f' with
  | zero =>
    have hf : f = 0 := by omega
    subst hf
    simp [walk] at h
  | succ n ih =>
    by_cases hf : f = n + 1
    · subst hf; exact h
    · exact walk_mono tbl n p ps (ih (by omega))

theorem walk_mem (tbl : List LinkEntry) (fuel : Nat) :
    ∀ q ps, walk tbl fuel q = some ps → ∀ p ∈ ps,
      ∃ f' ss, f' ≤ fuel ∧ walk tbl f' p = some ss ∧ ss.length ≤ ps.length := by
  induction fuel with
  | zero => intro q ps h; simp [walk] at h
  | succ n ih =>
    intro q ps h p hp
    unfold walk at h
    cases hg : tbl.get? q with
    | none => simp only [hg] at h; cases h
    | some e =>
      cases e with
      | free => simp only [hg] at h; cases h
      | term =>
        simp only [hg] at h
        injection h with h
        subst h
        rcases List.mem_singleton.mp hp with rfl
        exact ⟨n + 1, [p], Nat.le_refl _, by unfold walk; rw [hg], by simp⟩
      | next r =>
        simp only [hg] at h
        cases hw : walk tbl n r with
        | none => rw [hw] at h; cases h
        | some rest =>
          rw [hw] at h
          injection h with h
          subst h
          rcases List.mem_cons.mp hp with rfl | hmem
          · refine ⟨n + 1, p :: rest, Nat.le_refl _, ?_, Nat.le_refl _⟩
            unfold walk
            rw [hg]
            show Option.map (fun x => p :: x) (walk tbl n r) = some (p :: rest)
            rw [hw]
            rfl
          · obtain ⟨f', ss, hle, hwss, hlen⟩ := ih r rest hw p hmem
            exact ⟨f', ss, by omega, hwss, by simp; omega⟩

theorem walk_nodup (tbl : List LinkEntry) (fuel : Nat) :
    ∀ p ps, walk tbl fuel p = some ps → ps.Nodup := by
  induction fuel with
  | zero => intro p ps h; simp [walk] at h
  | succ n ih =>
    intro p ps h
    unfold walk at h
    cases hg : tbl.get? p with
    | none => simp only [hg] at h; cases h
    | some e =>
      cases e with
      | free => simp only [hg] at h; cases h
      | term =>
        simp only [hg] at h
        injection h with h
        subst h
        simp
      | next q =>
        simp only [hg] at h
        cases hw : walk tbl n q with
        | none => rw [hw] at h; cases h
        | some rest =>
          rw [hw] at h
          injection h with h
          subst h
          refine List.nodup_cons.mpr ⟨?_, ih q rest hw⟩
          intro hp
          obtain ⟨f', ss, hle, hwss, hlen⟩ := walk_mem tbl n q rest hw p hp
          have h1 : walk tbl (n + 1) p = some ss :=
            walk_mono_le tbl f' (n + 1) p ss (by omega) hwss
          have h2 : walk tbl (n + 1) p = some (p :: rest) := by
            unfold walk
            rw [hg]
            show Option.map (fun x => p :: x) (walk tbl n q) = some (p :: rest)
            rw [hw]
            rfl
          rw [h1] at h2
          injection h2 with h2
          rw [h2] at hlen
          simp at hlen

theorem walk_mem_entry (tbl : List LinkEntry) (fuel : Nat) :
    ∀ p ps, walk tbl fuel p = some ps → ∀ q ∈ ps,
      q < tbl.length ∧ isFreeEntry (tbl.get? q) = false := by
  induction fuel with
  | zero => intro p ps h; simp [walk] at h
  | succ n ih =>
    intro p ps h q hq
    unfold walk at h
    cases hg : tbl.get? p with
    | none => simp only [hg] at h; cases h
    | some e =>
      cases e with
      | free => simp only [hg] at h; cases h
      | term =>
        simp only [hg] at h
        injection h with h
        subst h
        rcases List.mem_singleton.mp hq with rfl
        exact ⟨get?_some_lt tbl q _ hg, by rw [hg]; rfl⟩
      | next r =>
        simp only [hg] at h
        cases hw : walk tbl n r with
        | none => rw [hw] at h; cases h
        | some rest =>
          rw [hw] at h
          injection h with h
          subst h
          rcases List.mem_cons.mp hq with rfl | hmem
          · exact ⟨get?_some_lt tbl q _ hg, by rw [hg]; rfl⟩
          · exact ih r rest hw q hmem

theorem walk_ne_nil (tbl : List LinkEntry) (fuel p : Nat)
    (h : walk tbl fuel p = some []) : False := by
  cases fuel with
  | zero => simp [walk] at h
  | succ n =>
    unfold walk at h
    cases hg : tbl.get? p with
    | none => simp only [hg] at h; cases h
    | some e =>
      cases e with
      | free => simp only [hg] at h; cases h
      | term => simp only [hg] at h; cases h
      | next q =>
        simp only [hg] at h
        cases hw : walk tbl n q with
        | none => rw [hw] at h; cases h
        | some rest => rw [hw] at h; cases h

theorem isFreeEntry_iff (o : Option LinkEntry) :
    isFreeEntry o = true ↔ o = some .free := by
  cases o with
  | none => simp [isFreeEntry]
  | some e => cases e <;> simp [isFreeEntry]

theorem freeIndices_congr (tbl tbl' : List LinkEntry)
    (hlen : tbl'.length = tbl.length)
    (h : ∀ q, tbl'.get? q = tbl.get? q) : freeIndices tbl' = freeIndices tbl := by
  unfold freeIndices
  rw [hlen]
  exact List.filter_congr (fun q _ => by rw [h])

theorem freeIndices_markFree (tbl : List LinkEntry) (ps : List Nat)
    (hnd : ps.Nodup)
    (hmem : ∀ q ∈ ps, q < tbl.length ∧ isFreeEntry (tbl.get? q) = false) :
    (freeIndices (markFree tbl ps)).Perm (ps ++ freeIndices tbl) := by
  induction ps generalizing tbl with
  | nil => exact List.Perm.refl _
  | cons p rest ih =>
    have hp := hmem p (List.mem_cons_self p rest)
    have hstep : markFree tbl (p :: rest) = markFree (tbl.set p .free) rest := rfl
    have hrest : ∀ q ∈ rest, q < (tbl.set p .free).length ∧
        isFreeEntry ((tbl.set p .free).get? q) = false := by
      intro q hq
      have hne : q ≠ p := fun h => (List.nodup_cons.mp hnd).1 (h ▸ hq)
      obtain ⟨h1, h2⟩ := hmem q (List.mem_cons_of_mem p hq)
      rw [List.length_set, List.get?_set_ne _ _ (fun h => hne h.symm)]
      exact ⟨h1, h2⟩
    have ih2 := ih (tbl.set p .free) (List.nodup_cons.mp hnd).2 hrest
    rw [hstep]
    refine ih2.trans ?_
    have hfp : (freeIndices (tbl.set p .free)).Perm (p :: freeIndices tbl) :=
      freeIndices_set_free tbl p hp.1 hp.2
    refine ((hfp.append_left rest).trans ?_)
    exact List.perm_middle

theorem countFree_markFree (tbl : List LinkEntry) (ps : List Nat)
    (hnd : ps.Nodup)
    (hmem : ∀ q ∈ ps, q < tbl.length ∧ isFreeEntry (tbl.get? q) = false) :
    countFree (markFree tbl ps) = ps.length + countFree tbl := by
  have := (freeIndices_markFree tbl ps hnd hmem).length_eq
  simpa [countFree] using this

/-! ## C6: remove reverses create -/

theorem removeNote_of_findNote (notes : List (Option Note)) (name : Name)
    (nt : Note) (h : findNote notes name = some nt) :
    ∃ notes2, removeNote notes name = some (nt, notes2) := by
  induction notes with
  | nil => simp [findNote] at h
  | cons o rest ih =>
    cases o with
    | none =>
      simp only [findNote] at h
      obtain ⟨notes2, h2⟩ := ih h
      exact ⟨none :: notes2, by simp [removeNote, h2]⟩
    | some x =>
      simp only [findNote] at h
      by_cases hx : x.name = name
      · rw [if_pos hx] at h
        injection h with h
        subst h
        exact ⟨none :: rest, by simp [removeNote, hx]⟩
      · rw [if_neg hx] at h
        obtain ⟨notes2, h2⟩ := ih h
        exact ⟨some x :: notes2, by simp [removeNote, hx, h2]⟩

theorem removeNote_insertNote (notes notes2 : List (Option Note)) (nt : Note)
    (hi : insertNote notes nt = some notes2)
    (hn : findNote notes nt.name = none) :
    removeNote notes2 nt.name = some (nt, notes) := by
  induction notes generalizing notes2 with
  | nil => simp [insertNote] at hi
  | cons o rest ih =>
    cases o with
    | none =>
      simp only [insertNote] at hi
      injection hi with hi
      subst hi
      simp [removeNote]
    | some x =>
      simp only [insertNote, Option.map_eq_some'] at hi
      obtain ⟨l, hl, rfl⟩ := hi
      simp only [findNote] at hn
      by_cases hx : x.name = nt.name
      · rw [if_pos hx] at hn; cases hn
      · rw [if_neg hx] at hn
        simp [removeNote, hx, ih l hl hn]

theorem create_ok_inversion (s : FsState) (name : Name) (nt : Note)
    (s1 : FsState) (h : create s name = (.ok nt, s1)) :
    ∃ p notes2,
      validName name = true ∧
      name ≠ rootName ∧
      findNote s.notes name = none ∧
      p < s.inode.length ∧
      isFreeEntry (s.inode.get? p) = true ∧
      insertNote s.notes ⟨name, p⟩ = some notes2 ∧
      nt = ⟨name, p⟩ ∧
      s1 = { inode := s.inode.set p .term, notes := notes2,
             pages := zeroPages s.pages [p] } := by
  unfold create at h
  by_cases h1 : name = [] ∨ name.contains '/' = true
  · rw [if_pos (by simpa using h1)] at h; cases h
  · rw [if_neg (by simpa using h1)] at h
    by_cases h2 : name = rootName
    · rw [if_pos h2] at h; cases h
    · rw [if_neg h2] at h
      by_cases h3 : (splitName name).1.length > maxBase ∨
          (splitName name).2.length > maxExt
      · rw [if_pos h3] at h; cases h
      · rw [if_neg h3] at h
        cases hfn : findNote s.notes name with
        | some x => rw [hfn] at h; cases h
        | none =>
          simp only [hfn] at h
          cases halloc : allocateChain s.inode 1 with
          | error e => simp only [halloc] at h; cases h
          | ok r =>
            simp only [halloc] at h
            obtain ⟨ps, tbl2⟩ := r
            cases hps : ps with
            | nil => simp only [hps] at h; cases h
            | cons p rest =>
              simp only [hps] at h
              cases hins : insertNote s.notes ⟨name, p⟩ with
              | none => simp only [hins] at h; cases h
              | some notes2 =>
                simp only [hins] at h
                injection h with h5 h6
                injection h5 with h7
                subst h6
                subst h7
                unfold allocateChain at halloc
                by_cases hlen : (freeIndices s.inode).length < 1
                · rw [if_pos hlen] at halloc; cases halloc
                · rw [if_neg hlen] at halloc
                  injection halloc with halloc2
                  have htake : (freeIndices s.inode).take 1 = p :: rest := by
                    have := congrArg Prod.fst halloc2
                    simpa [hps] using this
                  have htbl : tbl2 =
                      linkChain s.inode ((freeIndices s.inode).take 1) := by
                    have := congrArg Prod.snd halloc2
                    simpa using this.symm
                  have hrest : rest = [] := by
                    have hle : (p :: rest).length ≤ 1 := by
                      rw [← htake]; exact List.length_take_le 1 _
                    simp only [List.length_cons] at hle
                    exact List.length_eq_zero.mp (by omega)
                  subst hrest
                  rw [htake] at htbl
                  have hpmem : p ∈ freeIndices s.inode :=
                    List.take_subset 1 _ (htake ▸ List.mem_cons_self p [])
                  obtain ⟨hplt, hpfree⟩ := (mem_freeIndices s.inode p).mp hpmem
                  have hval : validName name = true := by
                    simp only [validName, Bool.and_eq_true, decide_eq_true_eq]
                    exact ⟨(not_or.mp h1).1, by simpa using (not_or.mp h1).2⟩
                  exact ⟨p, notes2, hval, h2, rfl, hplt, hpfree, hins, rfl,
                    by rw [htbl]; rfl⟩

/-- C6: remove exactly reverses create: removing a file just created
restores the free space exactly, and in general removing a file releases
its entire chain, increasing the free bytes by exactly the file's size. -/
theorem remove_reverses_create (s : FsState) (name : Name) :
    (∀ nt s1, create s name = (.ok nt, s1) →
      (remove s1 name).1 = .ok () ∧ freeBytes (remove s1 name).2 = freeBytes s)
    ∧ (∀ nt ps, findE s name = .ok nt → chain s.inode nt.head = some ps →
      (remove s name).1 = .ok () ∧
      freeBytes (remove s name).2 = freeBytes s + fileSize s nt) := by
  constructor
  · intro nt s1 h
    obtain ⟨p, notes2, hval, hroot, hfn, hplt, hpfree, hins, rfl, rfl⟩ :=
      create_ok_inversion s name nt s1 h
    have hfn1 : findNote notes2 name = some ⟨name, p⟩ :=
      insertNote_findNote s.notes notes2 ⟨name, p⟩ hins hfn
    have hfind1 : findE ⟨s.inode.set p .term, notes2, zeroPages s.pages [p]⟩
        name = .ok ⟨name, p⟩ := by
      unfold findE
      rw [if_neg (by simp [hval]), if_neg hroot]
      simp only [hfn1]
    have hchain1 : chain (s.inode.set p .term) p = some [p] := by
      unfold chain
      rw [List.length_set]
      exact walk_of_term _ _ _ (by rw [List.get?_set_eq_of_lt _ hplt]) (by omega)
    have hrel : releaseChain (s.inode.set p .term) p =
        .ok ((s.inode.set p .term).set p .free) := by
      unfold releaseChain
      simp only [hchain1]
      rfl
    have hrem : removeNote notes2 name = some (⟨name, p⟩, s.notes) :=
      removeNote_insertNote s.notes notes2 ⟨name, p⟩ hins hfn
    have hres : remove ⟨s.inode.set p .term, notes2, zeroPages s.pages [p]⟩
        name =
        (.ok (), ⟨(s.inode.set p .term).set p .free, s.notes,
                  zeroPages s.pages [p]⟩) := by
      unfold remove
      simp only [hfind1, hrel, hrem]
    rw [hres]
    refine ⟨rfl, ?_⟩
    show countFree ((s.inode.set p .term).set p .free) * pageSize =
      countFree s.inode * pageSize
    rw [List.set_set]
    have hcong : freeIndices (s.inode.set p .free) = freeIndices s.inode := by
      apply freeIndices_congr
      · exact List.length_set s.inode p .free
      · intro q
        by_cases hq : q = p
        · subst hq
          rw [List.get?_set_eq_of_lt _ hplt, (isFreeEntry_iff _).mp hpfree]
        · exact List.get?_set_ne _ _ (fun h => hq h.symm)
    unfold countFree
    rw [hcong]
  · intro nt ps hfe hch
    have hnd := walk_nodup s.inode s.inode.length nt.head ps hch
    have hment := walk_mem_entry s.inode s.inode.length nt.head ps hch
    have hfn : findNote s.notes name = some nt := by
      unfold findE at hfe
      by_cases hval : validName name = true
      · rw [if_neg (by simp [hval])] at hfe
        by_cases hroot : name = rootName
        · rw [if_pos hroot] at hfe; cases hfe
        · rw [if_neg hroot] at hfe
          cases hfind : findNote s.notes name with
          | none => rw [hfind] at hfe; cases hfe
          | some x =>
            rw [hfind] at hfe
            injection hfe with hfe
            rw [hfe]
      · rw [if_pos (by simpa using hval)] at hfe; cases hfe
    obtain ⟨notes2, hrem⟩ := removeNote_of_findNote s.notes name nt hfn
    have hrel : releaseChain s.inode nt.head = .ok (markFree s.inode ps) := by
      unfold releaseChain
      simp only [hch]
    have hres : remove s name = (.ok (),
        { s with inode := markFree s.inode ps, notes := notes2 }) := by
      unfold remove
      simp only [hfe, hrel, hrem]
    rw [hres]
    refine ⟨rfl, ?_⟩
    show countFree (markFree s.inode ps) * pageSize =
      countFree s.inode * pageSize + fileSize s nt
    rw [countFree_markFree s.inode ps hnd hment]
    unfold fileSize
    rw [hch]
    simp [Nat.add_mul, Nat.add_comm]

/-- Witness for C6: creating then removing "B" on the sample state leaves
the free bytes unchanged, and removing the pre-existing two-page file "A"
adds exactly its size back to the free bytes. -/
theorem remove_reverses_create_witness :
    ((remove (create sampleState ['B']).2 ['B']).1 = .ok () ∧
      freeBytes (remove (create sampleState ['B']).2 ['B']).2 =
        freeBytes sampleState) ∧
    ((remove sampleState ['A']).1 = .ok () ∧
      freeBytes (remove sampleState ['A']).2 =
        freeBytes sampleState + fileSize sampleState ⟨['A'], 0⟩) :=
  ⟨(remove_reverses_create sampleState ['B']).1 ⟨['B'], 2⟩
      (create sampleState ['B']).2 rfl,
   (remove_reverses_create sampleState ['A']).2 ⟨['A'], 0⟩ [0, 1] rfl rfl⟩

/-! ## C8: truncate of a 7168-byte file to 6913 bytes -/

/-- C8 counterexample: on a medium holding a 7168-byte file whose last
page is full of ones, truncate to 6913 bytes succeeds and reports size
ceil(6913/pageSize)*pageSize = 7168, but it is an equal-page-count no-op,
so the byte at offset 7000 (beyond 6913, below the size boundary) still
reads back 1, not 0 — refuting the claim that the bytes beyond the
truncation offset read as zero. -/
theorem truncate_7168_not_zeroed :
    (truncate state7168 ['A'] 6913).1 = .ok () ∧
    fileSize (truncate state7168 ['A'] 6913).2 ⟨['A'], 0⟩ = 7168 ∧
    readAt (truncate state7168 ['A'] 6913).2 ['A'] 7000 1 = .ok [1] ∧
    readAt (truncate state7168 ['A'] 6913).2 ['A'] 7000 1 ≠ .ok [0] := by
  refine ⟨rfl, rfl, rfl, ?_⟩
  show (Except.ok [1] : Except Err (List Nat)) ≠ .ok [0]
  simp

/-- C8 amended: truncate(name, 6913) on a file of 7168 bytes (28 pages) is
an equal-page-count no-op: it succeeds, leaves the state (hence every file
byte) exactly unchanged, and the size it reports equals
ceil(size/pageSize)*pageSize; in general a truncate whose required page
count equals the current page count is a no-op regardless of the exact
byte value requested. -/
theorem truncate_equal_pages_noop (s : FsState) (name : Name) (nt : Note)
    (ps : List Nat) (sz : Int)
    (hfe : findE s name = .ok nt) (hch : chain s.inode nt.head = some ps)
    (hpos : 0 ≤ sz) (hreq : requiredPages sz.toNat = ps.length) :
    truncate s name sz = (.ok (), s) ∧
    fileSize s nt = requiredPages sz.toNat * pageSize := by
  constructor
  · unfold truncate
    rw [if_neg (by omega)]
    simp only [hfe, hch]
    rw [if_pos hreq]
  · unfold fileSize
    rw [hch, hreq]
    rfl

/-- Witness for the amended C8: on the 28-page file "A" of 7168 bytes,
truncate to 6913 bytes is a no-op and the reported size is
requiredPages 6913 * pageSize = 7168. -/
theorem truncate_equal_pages_noop_witness :
    truncate state7168 ['A'] 6913 = (.ok (), state7168) ∧
    fileSize state7168 ⟨['A'], 0⟩ = requiredPages (6913 : Int).toNat * pageSize :=
  truncate_equal_pages_noop state7168 ['A'] ⟨['A'], 0⟩ (List.range 28) 6913
    rfl (by decide) (by decide) (by decide)

/-! ## Chain-structure lemmas for the allocator proofs -/

theorem walk_cons (tbl : List LinkEntry) (fuel p : Nat) (ps : List Nat)
    (h : walk tbl fuel p = some ps) : ∃ t, ps = p :: t := by
  cases fuel with
  | zero => simp [walk] at h
  | succ n =>
    unfold walk at h
    cases hg : tbl.get? p with
    | none => simp only [hg] at h; cases h
    | some e =>
      cases e with
      | free => simp only [hg] at h; cases h
      | term =>
        simp only [hg] at h
        injection h with h
        exact ⟨[], h.symm⟩
      | next q =>
        simp only [hg] at h
        cases hw : walk tbl n q with
        | none => rw [hw] at h; cases h
        | some rest =>
          rw [hw] at h
          injection h with h
          exact ⟨rest, h.symm⟩

theorem walk_congr (tbl tbl' : List LinkEntry) (fuel : Nat) :
    ∀ p ps, walk tbl fuel p = some ps →
      (∀ q ∈ ps, tbl'.get? q = tbl.get? q) → walk tbl' fuel p = some ps := by
  induction fuel with
  | zero => intro p ps h; simp [walk] at h
  | succ n ih =>
    intro p ps h hq
    unfold walk at h ⊢
    cases hg : tbl.get? p with
    | none => simp only [hg] at h; cases h
    | some e =>
      cases e with
      | free => simp only [hg] at h; cases h
      | term =>
        simp only [hg] at h
        injection h with h
        subst h
        rw [hq p (List.mem_singleton_self p), hg]
      | next q =>
        simp only [hg] at h
        cases hw : walk tbl n q with
        | none => rw [hw] at h; cases h
        | some rest =>
          rw [hw] at h
          injection h with h
          subst h
          rw [hq p (List.mem_cons_self p rest), hg]
          show Option.map (fun x => p :: x) (walk tbl' n q) = some (p :: rest)
          rw [ih q rest hw (fun r hr => hq r (List.mem_cons_of_mem p hr))]
          rfl

theorem walk_isChain (tbl : List LinkEntry) (fuel : Nat) :
    ∀ p ps, walk tbl fuel p = some ps → IsChain tbl ps := by
  induction fuel with
  | zero => intro p ps h; simp [walk] at h
  | succ n ih =>
    intro p ps h
    unfold walk at h
    cases hg : tbl.get? p with
    | none => simp only [hg] at h; cases h
    | some e =>
      cases e with
      | free => simp only [hg] at h; cases h
      | term =>
        simp only [hg] at h
        injection h with h
        subst h
        exact IsChain.single hg
      | next q =>
        simp only [hg] at h
        cases hw : walk tbl n q with
        | none => rw [hw] at h; cases h
        | some rest =>
          rw [hw] at h
          injection h with h
          subst h
          obtain ⟨t, rfl⟩ := walk_cons tbl n q rest hw
          exact IsChain.step hg (ih q _ hw)

theorem isChain_congr (tbl tbl' : List LinkEntry) (ps : List Nat)
    (h : IsChain tbl ps) (hq : ∀ q ∈ ps, tbl'.get? q = tbl.get? q) :
    IsChain tbl' ps := by
  induction h with
  | single hp => exact IsChain.single ((hq _ (List.mem_singleton_self _)).trans hp)
  | step hp _ ih =>
    exact IsChain.step ((hq _ (List.mem_cons_self _ _)).trans hp)
      (ih (fun q hqq => hq q (List.mem_cons_of_mem _ hqq)))

theorem isChain_walk (tbl : List LinkEntry) (ps : List Nat) (h : IsChain tbl ps) :
    ∀ fuel, ps.length ≤ fuel → walk tbl fuel (ps.headD 0) = some ps := by
  induction h with
  | @single p0 hp =>
    intro fuel hf
    exact walk_of_term tbl p0 fuel hp (by simpa using hf)
  | @step p0 q rest hp hc ih =>
    intro fuel hf
    cases fuel with
    | zero => simp at hf
    | succ n =>
      show walk tbl (n + 1) p0 = some (p0 :: q :: rest)
      unfold walk
      rw [hp]
      show Option.map (fun x => p0 :: x) (walk tbl n q) = some (p0 :: q :: rest)
      have := ih n (by simp at hf ⊢; omega)
      rw [show ((q :: rest).headD 0) = q from rfl] at this
      rw [this]
      rfl

theorem isChain_mem_lt (tbl : List LinkEntry) (ps : List Nat)
    (h : IsChain tbl ps) : ∀ q ∈ ps, q < tbl.length := by
  induction h with
  | @single p0 hp =>
    intro q hq
    rcases List.mem_singleton.mp hq with rfl
    exact get?_some_lt tbl q _ hp
  | @step p0 q0 rest hp _ ih =>
    intro q hq
    rcases List.mem_cons.mp hq with rfl | hmem
    · exact get?_some_lt tbl q _ hp
    · exact ih q hmem

theorem linkChain_length (tbl : List LinkEntry) (ps : List Nat) :
    (linkChain tbl ps).length = tbl.length := by
  induction ps with
  | nil => rfl
  | cons p rest ih =>
    cases rest with
    | nil => exact List.length_set tbl p .term
    | cons q rest2 =>
      show ((linkChain tbl (q :: rest2)).set p (.next q)).length = tbl.length
      rw [List.length_set]
      exact ih

theorem linkChain_get?_notMem (tbl : List LinkEntry) (ps : List Nat) (r : Nat)
    (h : r ∉ ps) : (linkChain tbl ps).get? r = tbl.get? r := by
  induction ps with
  | nil => rfl
  | cons p rest ih =>
    have hrp : r ≠ p := fun he => h (he ▸ List.mem_cons_self p rest)
    cases rest with
    | nil => exact List.get?_set_ne _ _ (fun he => hrp he.symm)
    | cons q rest2 =>
      show ((linkChain tbl (q :: rest2)).set p (.next q)).get? r = tbl.get? r
      rw [List.get?_set_ne _ _ (fun he => hrp he.symm)]
      exact ih (fun hm => h (List.mem_cons_of_mem p hm))

theorem linkChain_isChain (tbl : List LinkEntry) (ps : List Nat)
    (hne : ps ≠ []) (hnd : ps.Nodup) (hlt : ∀ p ∈ ps, p < tbl.length) :
    IsChain (linkChain tbl ps) ps := by
  induction ps with
  | nil => cases hne rfl
  | cons p rest ih =>
    cases rest with
    | nil =>
      apply IsChain.single
      show (tbl.set p .term).get? p = some .term
      exact List.get?_set_eq_of_lt _ (hlt p (List.mem_cons_self p []))
    | cons q rest2 =>
      have hpq : p ∉ q :: rest2 := (List.nodup_cons.mp hnd).1
      apply IsChain.step
      · show ((linkChain tbl (q :: rest2)).set p (.next q)).get? p =
          some (.next q)
        apply List.get?_set_eq_of_lt
        rw [linkChain_length]
        exact hlt p (List.mem_cons_self p _)
      · apply isChain_congr (linkChain tbl (q :: rest2))
        · exact ih (by simp) (List.nodup_cons.mp hnd).2
            (fun r hr => hlt r (List.mem_cons_of_mem p hr))
        · intro r hr
          show ((linkChain tbl (q :: rest2)).set p (.next q)).get? r =
            (linkChain tbl (q :: rest2)).get? r
          exact List.get?_set_ne _ _ (fun he => (he ▸ hpq) hr)

theorem linkChain_get?_mem (tbl : List LinkEntry) (ps : List Nat) (r : Nat)
    (hnd : ps.Nodup) (hlt : ∀ p ∈ ps, p < tbl.length) (h : r ∈ ps) :
    isFreeEntry ((linkChain tbl ps).get? r) = false := by
  induction ps with
  | nil => cases h
  | cons p rest ih =>
    cases rest with
    | nil =>
      rcases List.mem_singleton.mp h with rfl
      show isFreeEntry ((tbl.set r .term).get? r) = false
      rw [List.get?_set_eq_of_lt _ (hlt r (List.mem_cons_self r []))]
      rfl
    | cons q rest2 =>
      have hpq : p ∉ q :: rest2 := (List.nodup_cons.mp hnd).1
      rcases List.mem_cons.mp h with rfl | hmem
      · show isFreeEntry (((linkChain tbl (q :: rest2)).set r (.next q)).get? r)
          = false
        rw [List.get?_set_eq_of_lt _
          (by rw [linkChain_length]; exact hlt r (List.mem_cons_self r _))]
        rfl
      · have hrp : r ≠ p := fun he => (he ▸ hpq) hmem
        show isFreeEntry (((linkChain tbl (q :: rest2)).set p (.next q)).get? r)
          = false
        rw [List.get?_set_ne _ _ (fun he => hrp he.symm)]
        exact ih (List.nodup_cons.mp hnd).2
          (fun x hx => hlt x (List.mem_cons_of_mem p hx)) hmem

theorem freeIndices_linkChain (tbl : List LinkEntry) (ps : List Nat)
    (hnd : ps.Nodup)
    (hmem : ∀ q ∈ ps, q < tbl.length ∧ isFreeEntry (tbl.get? q) = true) :
    (ps ++ freeIndices (linkChain tbl ps)).Perm (freeIndices tbl) := by
  induction ps with
  | nil => exact List.Perm.refl _
  | cons p rest ih =>
    have hp := hmem p (List.mem_cons_self p rest)
    have hpr : p ∉ rest := (List.nodup_cons.mp hnd).1
    have hstep : ∀ (e : LinkEntry), isFreeEntry (some e) = false →
        ((linkChain tbl rest).set p e).length = tbl.length ∧
        isFreeEntry ((linkChain tbl rest).get? p) = true := by
      intro e _
      constructor
      · rw [List.length_set, linkChain_length]
      · rw [linkChain_get?_notMem tbl rest p hpr]
        exact hp.2
    have ihp := ih (List.nodup_cons.mp hnd).2
      (fun q hq => hmem q (List.mem_cons_of_mem p hq))
    cases rest with
    | nil =>
      show (p :: ([] ++ freeIndices (tbl.set p .term))).Perm (freeIndices tbl)
      have := freeIndices_set_nonfree tbl p .term hp.1 hp.2 rfl
      simpa using this.symm
    | cons q rest2 =>
      show (p :: ((q :: rest2) ++
        freeIndices ((linkChain tbl (q :: rest2)).set p (.next q)))).Perm
        (freeIndices tbl)
      have hplt : p < (linkChain tbl (q :: rest2)).length := by
        rw [linkChain_length]; exact hp.1
      have hpfree : isFreeEntry ((linkChain tbl (q :: rest2)).get? p) = true := by
        rw [linkChain_get?_notMem tbl (q :: rest2) p hpr]
        exact hp.2
      have hset := freeIndices_set_nonfree (linkChain tbl (q :: rest2)) p
        (.next q) hplt hpfree rfl
      refine List.Perm.trans List.perm_middle.symm ?_
      exact List.Perm.trans ((hset.symm).append_left (q :: rest2)) ihp

theorem markFree_length (tbl : List LinkEntry) (ps : List Nat) :
    (markFree tbl ps).length = tbl.length := by
  induction ps generalizing tbl with
  | nil => rfl
  | cons p rest ih =>
    show (markFree (tbl.set p .free) rest).length = tbl.length
    rw [ih, List.length_set]

theorem markFree_get?_notMem (tbl : List LinkEntry) (ps : List Nat) (r : Nat)
    (h : r ∉ ps) : (markFree tbl ps).get? r = tbl.get? r := by
  induction ps generalizing tbl with
  | nil => rfl
  | cons p rest ih =>
    show (markFree (tbl.set p .free) rest).get? r = tbl.get? r
    rw [ih _ (fun hm => h (List.mem_cons_of_mem p hm))]
    exact List.get?_set_ne _ _
      (fun he => h (he ▸ List.mem_cons_self p rest))

theorem getLastD_cons_cons (a b : Nat) (l : List Nat) (d : Nat) :
    (a :: b :: l).getLastD d = (b :: l).getLastD d := by
  simp [List.getLastD_cons]

theorem getLastD_mem (l : List Nat) (d : Nat) (h : l ≠ []) :
    l.getLastD d ∈ l := by
  induction l with
  | nil => cases h rfl
  | cons a t ih =>
    cases t with
    | nil => simp
    | cons b t2 =>
      rw [getLastD_cons_cons]
      exact List.mem_cons_of_mem a (ih (by simp))

theorem nodup_lt_length_le (ps : List Nat) (n : Nat) (hnd : ps.Nodup)
    (hlt : ∀ q ∈ ps, q < n) : ps.length ≤ n := by
  have hsub : ps ⊆ List.range n := fun q hq => List.mem_range.mpr (hlt q hq)
  have := (List.subperm_of_subset hnd hsub).length_le
  simpa using this

theorem isChain_splice (tbl : List LinkEntry) (ps : List Nat) (q0 : Nat)
    (qrest : List Nat) (h1 : IsChain tbl ps) (h2 : IsChain tbl (q0 :: qrest))
    (hd : ∀ p ∈ ps, p ∉ q0 :: qrest) (hnd : ps.Nodup) :
    IsChain (tbl.set (ps.getLastD 0) (.next q0)) (ps ++ q0 :: qrest) := by
  induction h1 with
  | @single p hp =>
    show IsChain (tbl.set ([p].getLastD 0) (.next q0)) (p :: q0 :: qrest)
    have hplt : p < tbl.length := get?_some_lt tbl p _ hp
    apply IsChain.step
    · show (tbl.set p (.next q0)).get? p = some (.next q0)
      exact List.get?_set_eq_of_lt _ hplt
    · apply isChain_congr tbl _ _ h2
      intro q hq
      apply List.get?_set_ne
      intro he
      have hpq : p = q := he
      exact (hd p (List.mem_singleton_self p)) (by rw [hpq]; exact hq)
  | @step p q rest hp hc ih =>
    have hlast : ((p :: q :: rest).getLastD 0) = ((q :: rest).getLastD 0) :=
      getLastD_cons_cons p q rest 0
    have hpn : p ∉ q :: rest := (List.nodup_cons.mp hnd).1
    have hlmem : ((q :: rest).getLastD 0) ∈ q :: rest :=
      getLastD_mem (q :: rest) 0 (by simp)
    show IsChain (tbl.set ((p :: q :: rest).getLastD 0) (.next q0))
      (p :: ((q :: rest) ++ q0 :: qrest))
    rw [hlast]
    apply IsChain.step
    · show (tbl.set ((q :: rest).getLastD 0) (.next q0)).get? p =
        some (.next q)
      rw [List.get?_set_ne]
      · exact hp
      · intro he
        exact hpn (by rw [← he]; exact hlmem)
    · have := ih (fun x hx => hd x (List.mem_cons_of_mem p hx))
        (List.nodup_cons.mp hnd).2
      exact this

theorem isChain_reterm (tbl tbl2 : List LinkEntry) (ps : List Nat)
    (h : IsChain tbl ps) : ∀ (k : Nat), ps.Nodup → 0 < k →
    (∀ q ∈ ps.take k, q ≠ (ps.take k).getLastD 0 → tbl2.get? q = tbl.get? q) →
    tbl2.get? ((ps.take k).getLastD 0) = some .term →
    IsChain tbl2 (ps.take k) := by
  induction h with
  | @single p hp =>
    intro k hnd hk hagree hlast
    have htake : [p].take k = [p] := by
      cases k with
      | zero => omega
      | succ n => simp
    rw [htake] at hlast ⊢
    exact IsChain.single hlast
  | @step p q rest hp hc ih =>
    intro k hnd hk hagree hlast
    cases k with
    | zero => omega
    | succ k2 =>
      cases k2 with
      | zero =>
        show IsChain tbl2 [p]
        exact IsChain.single (by simpa using hlast)
      | succ k3 =>
        have htake : (p :: q :: rest).take (k3 + 2) =
            p :: (q :: rest).take (k3 + 1) := rfl
        rw [htake] at hagree hlast ⊢
        have htk : (q :: rest).take (k3 + 1) = q :: rest.take k3 := rfl
        have hne : (q :: rest).take (k3 + 1) ≠ [] := by rw [htk]; simp
        have hlast2 : (p :: (q :: rest).take (k3 + 1)).getLastD 0 =
            ((q :: rest).take (k3 + 1)).getLastD 0 := by
          rw [htk]
          exact getLastD_cons_cons p q (rest.take k3) 0
        have hpn : p ∉ q :: rest := (List.nodup_cons.mp hnd).1
        have hlmem : ((q :: rest).take (k3 + 1)).getLastD 0 ∈ q :: rest :=
          List.take_subset _ _ (getLastD_mem _ 0 hne)
        apply IsChain.step
        · rw [hagree p (List.mem_cons_self _ _)
            (by rw [hlast2]; exact fun he => hpn (he ▸ hlmem))]
          exact hp
        · apply ih (k3 + 1) (List.nodup_cons.mp hnd).2 (by omega)
          · intro x hx hxne
            exact hagree x (List.mem_cons_of_mem p hx)
              (by rw [hlast2]; exact hxne)
          · rw [← hlast2]
            exact hlast

/-! ## Page-region preservation lemmas -/

theorem zeroPages_length (pages : List (List Nat)) (l : List Nat) :
    (zeroPages pages l).length = pages.length := by
  induction l generalizing pages with
  | nil => rfl
  | cons p rest ih =>
    show (zeroPages (pages.set p zeroPage) rest).length = pages.length
    rw [ih, List.length_set]

theorem zeroPages_mem (pages : List (List Nat)) (l : List Nat) :
    ∀ pg ∈ zeroPages pages l, pg ∈ pages ∨ pg = zeroPage := by
  induction l generalizing pages with
  | nil => intro pg hpg; exact Or.inl hpg
  | cons p rest ih =>
    intro pg hpg
    rcases ih (pages.set p zeroPage) pg hpg with hmem | heq
    · rcases List.mem_or_eq_of_mem_set hmem with h | h
      · exact Or.inl h
      · exact Or.inr h
    · exact Or.inr heq

theorem setByteInPages_length (pages : List (List Nat)) (ps : List Nat)
    (pos b : Nat) : (setByteInPages pages ps pos b).length = pages.length := by
  unfold setByteInPages
  cases ps.get? (pos / pageSize) with
  | none => rfl
  | some pg => exact List.length_set _ _ _

theorem writeBytes_length (pages : List (List Nat)) (ps : List Nat)
    (off : Nat) (buf : List Nat) :
    (writeBytes pages ps off buf).length = pages.length := by
  induction buf generalizing pages off with
  | nil => rfl
  | cons b rest ih =>
    show (writeBytes (setByteInPages pages ps off b) ps (off + 1) rest).length
      = pages.length
    rw [ih, setByteInPages_length]

theorem setByteInPages_mem (pages : List (List Nat)) (ps : List Nat)
    (pos b : Nat) (hlen : ∀ pg ∈ pages, pg.length = pageSize) :
    ∀ pg ∈ setByteInPages pages ps pos b, pg.length = pageSize := by
  cases hg : ps.get? (pos / pageSize) with
  | none =>
    have heq : setByteInPages pages ps pos b = pages := by
      unfold setByteInPages; rw [hg]
    rw [heq]
    exact hlen
  | some pgi =>
    have heq : setByteInPages pages ps pos b =
        pages.set pgi ((pages.getD pgi []).set (pos % pageSize) b) := by
      unfold setByteInPages; rw [hg]
    rw [heq]
    intro pg hpg
    by_cases hpl : pgi < pages.length
    · rcases List.mem_or_eq_of_mem_set hpg with h | h
      · exact hlen pg h
      · subst h
        rw [List.length_set, List.getD_eq_getElem pages [] hpl]
        exact hlen _ (List.getElem_mem hpl)
    · rw [List.set_eq_of_length_le (by omega)] at hpg
      exact hlen pg hpg

theorem writeBytes_mem (pages : List (List Nat)) (ps : List Nat) (off : Nat)
    (buf : List Nat) (hlen : ∀ pg ∈ pages, pg.length = pageSize) :
    ∀ pg ∈ writeBytes pages ps off buf, pg.length = pageSize := by
  induction buf generalizing pages off with
  | nil => exact hlen
  | cons b rest ih =>
    intro pg hpg
    exact ih (setByteInPages pages ps off b) (off + 1)
      (setByteInPages_mem pages ps off b hlen) pg hpg

/-! ## Splitting the note table around one entry -/

theorem findE_ok_inv (s : FsState) (name : Name) (nt : Note)
    (h : findE s name = .ok nt) :
    validName name = true ∧ name ≠ rootName ∧ findNote s.notes name = some nt := by
  unfold findE at h
  by_cases hval : validName name = true
  · rw [if_neg (by simp [hval])] at h
    by_cases hroot : name = rootName
    · rw [if_pos hroot] at h; cases h
    · rw [if_neg hroot] at h
      cases hfind : findNote s.notes name with
      | none => rw [hfind] at h; cases h
      | some x =>
        rw [hfind] at h
        injection h with h
        exact ⟨hval, hroot, by rw [← h]⟩
  · rw [if_pos (by simpa using hval)] at h; cases h

theorem usedNotes_removeNote_split (notes : List (Option Note)) (name : Name)
    (nt : Note) (notes2 : List (Option Note))
    (h : removeNote notes name = some (nt, notes2)) :
    ∃ A B, usedNotes notes = A ++ nt :: B ∧ usedNotes notes2 = A ++ B := by
  induction notes generalizing notes2 with
  | nil => simp [removeNote] at h
  | cons o rest ih =>
    cases o with
    | none =>
      simp only [removeNote, Option.map_eq_some'] at h
      obtain ⟨r, hr, he⟩ := h
      obtain ⟨he1, he2⟩ := Prod.mk.injEq .. ▸ he
      obtain ⟨A, B, h1, h2⟩ := ih r.2 (by rw [← he1]; exact hr)
      exact ⟨A, B, by simpa [usedNotes] using h1,
        by rw [← he2]; simpa [usedNotes] using h2⟩
    | some x =>
      simp only [removeNote] at h
      by_cases hx : x.name = name
      · rw [if_pos hx] at h
        injection h with h
        obtain ⟨he1, he2⟩ := Prod.mk.injEq .. ▸ h
        exact ⟨[], usedNotes rest, by rw [he1]; simp [usedNotes],
          by rw [← he2]; simp [usedNotes]⟩
      · rw [if_neg hx] at h
        rw [Option.map_eq_some'] at h
        obtain ⟨r, hr, he⟩ := h
        obtain ⟨he1, he2⟩ := Prod.mk.injEq .. ▸ he
        obtain ⟨A, B, h1, h2⟩ := ih r.2 (by rw [← he1]; exact hr)
        refine ⟨x :: A, B, ?_, ?_⟩
        · simpa [usedNotes] using h1
        · rw [← he2]; simpa [usedNotes] using h2

theorem usedNotes_insertNote_split (notes : List (Option Note)) (nt : Note)
    (notes2 : List (Option Note)) (h : insertNote notes nt = some notes2) :
    ∃ A B, usedNotes notes = A ++ B ∧ usedNotes notes2 = A ++ nt :: B := by
  induction notes generalizing notes2 with
  | nil => simp [insertNote] at h
  | cons o rest ih =>
    cases o with
    | none =>
      simp only [insertNote] at h
      injection h with h
      subst h
      exact ⟨[], usedNotes rest, by simp [usedNotes], by simp [usedNotes]⟩
    | some x =>
      simp only [insertNote, Option.map_eq_some'] at h
      obtain ⟨l, hl, rfl⟩ := h
      obtain ⟨A, B, h1, h2⟩ := ih l hl
      exact ⟨x :: A, B, by simpa [usedNotes] using h1,
        by simpa [usedNotes] using h2⟩

theorem root_split_of_findNote (notes : List (Option Note)) (name : Name)
    (nt : Note) (h : findNote notes name = some nt) :
    ∃ A B, usedNotes notes = A ++ nt :: B := by
  obtain ⟨notes2, hrem⟩ := removeNote_of_findNote notes name nt h
  obtain ⟨A, B, h1, _⟩ := usedNotes_removeNote_split notes name nt notes2 hrem
  exact ⟨A, B, h1⟩

/-! ## Nodup decomposition of the page partition -/

theorem WF_nodup (s : FsState) (h : WF s) :
    ((allChains s).flatten ++ freeIndices s.inode).Nodup :=
  (h.2.1.nodup_iff).mpr (List.nodup_range _)

theorem nodup_four (FA ps FB free : List Nat)
    (h : ((FA ++ ps ++ FB) ++ free).Nodup) :
    ps.Nodup ∧
    (∀ q ∈ FA, q ∉ ps ∧ q ∉ free) ∧
    (∀ q ∈ FB, q ∉ ps ∧ q ∉ free) ∧
    (∀ q ∈ ps, q ∉ free) := by
  rw [List.nodup_append] at h
  obtain ⟨hin, hfree, hd3⟩ := h
  rw [List.nodup_append] at hin
  obtain ⟨hin2, hFB, hd2⟩ := hin
  rw [List.nodup_append] at hin2
  obtain ⟨hFA, hps, hd1⟩ := hin2
  refine ⟨hps, ?_, ?_, ?_⟩
  · intro q hq
    exact ⟨fun hp => hd1 hq hp,
      fun hf => hd3 (List.mem_append_left _ (List.mem_append_left _ hq)) hf⟩
  · intro q hq
    exact ⟨fun hp => hd2 (List.mem_append_right _ hp) hq,
      fun hf => hd3 (List.mem_append_right _ hq) hf⟩
  · intro q hq
    exact fun hf =>
      hd3 (List.mem_append_left _ (List.mem_append_right _ hq)) hf

theorem flatten_allChains (s : FsState) (A B : List Note) (nt : Note)
    (ps : List Nat) (hroot : root s = A ++ nt :: B)
    (hch : chain s.inode nt.head = some ps) :
    (allChains s).flatten =
      ((A.map (fun x => (chain s.inode x.head).getD [])).flatten ++ ps ++
       (B.map (fun x => (chain s.inode x.head).getD [])).flatten) := by
  unfold allChains
  rw [hroot, List.map_append, List.map_cons, List.flatten_append,
    List.flatten_cons, hch]
  rw [List.append_assoc]
  rfl

/-! ## Zero-page write lemmas -/

theorem zeroPages_get?_notMem (pages : List (List Nat)) (l : List Nat)
    (r : Nat) (h : r ∉ l) : (zeroPages pages l).get? r = pages.get? r := by
  induction l generalizing pages with
  | nil => rfl
  | cons p rest ih =>
    show (zeroPages (pages.set p zeroPage) rest).get? r = pages.get? r
    rw [ih _ (fun hm => h (List.mem_cons_of_mem p hm))]
    exact List.get?_set_ne _ _
      (fun he => h (he ▸ List.mem_cons_self p rest))

theorem zeroPages_get?_mem (pages : List (List Nat)) (l : List Nat)
    (hnd : l.Nodup) (hlt : ∀ q ∈ l, q < pages.length) :
    ∀ q ∈ l, (zeroPages pages l).get? q = some zeroPage := by
  induction l generalizing pages with
  | nil => intro q hq; cases hq
  | cons p rest ih =>
    intro q hq
    rcases List.mem_cons.mp hq with rfl | hmem
    · show (zeroPages (pages.set q zeroPage) rest).get? q = some zeroPage
      rw [zeroPages_get?_notMem _ _ _ (List.nodup_cons.mp hnd).1]
      exact List.get?_set_eq_of_lt _ (hlt q (List.mem_cons_self q rest))
    · exact ih (pages.set p zeroPage) (List.nodup_cons.mp hnd).2
        (fun x hx => by
          rw [List.length_set]
          exact hlt x (List.mem_cons_of_mem p hx)) q hmem

/-! ## Correctness of chain growth -/

theorem growFile_ok (s : FsState) (nt : Note) (A B : List Note) (ps : List Nat)
    (required : Nat) (hWF : WF s)
    (hroot : root s = A ++ nt :: B)
    (hch : chain s.inode nt.head = some ps)
    (hreq : ps.length ≤ required)
    (r : List Nat × FsState) (hg : growFile s ps required = .ok r) :
    WF r.2 ∧
    r.2.notes = s.notes ∧
    r.2.inode.length = s.inode.length ∧
    chain r.2.inode nt.head = some r.1 ∧
    r.1.length = required ∧
    r.1.Nodup ∧
    ∃ newps, r.1 = ps ++ newps ∧ r.2.pages = zeroPages s.pages newps ∧
      ∀ q ∈ newps, q < s.inode.length ∧ r.2.pages.get? q = some zeroPage := by
  obtain ⟨hSome, hPerm, hPlen, hPgs⟩ := hWF
  have hpsnd : ps.Nodup := walk_nodup s.inode s.inode.length nt.head ps hch
  have hpsmem := walk_mem_entry s.inode s.inode.length nt.head ps hch
  have hpsne : ps ≠ [] :=
    fun he => walk_ne_nil s.inode s.inode.length nt.head (he ▸ hch)
  obtain ⟨pt, hcons⟩ := walk_cons s.inode s.inode.length nt.head ps hch
  unfold growFile at hg
  cases halloc : allocateChain s.inode (required - ps.length) with
  | error e => simp only [halloc] at hg; cases hg
  | ok a =>
    simp only [halloc] at hg
    obtain ⟨newps, tbl1⟩ := a
    unfold allocateChain at halloc
    by_cases hlt : (freeIndices s.inode).length < required - ps.length
    · rw [if_pos hlt] at halloc; cases halloc
    · rw [if_neg hlt] at halloc
      injection halloc with halloc
      have hnew : newps = (freeIndices s.inode).take (required - ps.length) :=
        (congrArg Prod.fst halloc).symm
      have htbl1 : tbl1 =
          linkChain s.inode ((freeIndices s.inode).take (required - ps.length)) :=
        (congrArg Prod.snd halloc).symm
      rw [← hnew] at htbl1
      have hnewlen : newps.length = required - ps.length := by
        rw [hnew, List.length_take]; omega
      have hnewmem : ∀ q ∈ newps,
          q < s.inode.length ∧ isFreeEntry (s.inode.get? q) = true := by
        intro q hq
        have hmem : q ∈ freeIndices s.inode := by
          rw [hnew] at hq; exact List.take_subset _ _ hq
        exact (mem_freeIndices s.inode q).mp hmem
      have hnewnd : newps.Nodup := by
        rw [hnew]
        exact List.Nodup.sublist (List.take_sublist _ _)
          (List.Nodup.filter _ (List.nodup_range _))
      have hdisj : ∀ p2 ∈ ps, p2 ∉ newps := by
        intro p2 hp2 hin
        have h1 := (hpsmem p2 hp2).2
        have h2 := (hnewmem p2 hin).2
        rw [h1] at h2
        cases h2
      by_cases hnil : newps = []
      · rw [if_pos hnil] at hg
        injection hg with hg
        have hr : r = (ps, s) := hg.symm
        subst hr
        have hlen : ps.length = required := by
          rw [hnil] at hnewlen
          simp at hnewlen
          omega
        exact ⟨⟨hSome, hPerm, hPlen, hPgs⟩, rfl, rfl, hch, hlen, hpsnd,
          [], by simp, rfl, by intro q hq; cases hq⟩
      · rw [if_neg hnil] at hg
        injection hg with hg
        obtain ⟨h0, tail, hcons2⟩ := List.exists_cons_of_ne_nil hnil
        have hhead : newps.headD 0 = h0 := by rw [hcons2]; rfl
        set L := ps.getLastD 0 with hLdef
        set tbl2 := tbl1.set L (.next (newps.headD 0)) with htbl2
        set pages2 := zeroPages s.pages newps with hpages2
        have hr : r = (ps ++ newps, ⟨tbl2, s.notes, pages2⟩) := hg.symm
        subst hr
        have hLmem : L ∈ ps := getLastD_mem ps 0 hpsne
        have hLlt : L < s.inode.length := (hpsmem L hLmem).1
        have htbl1len : tbl1.length = s.inode.length := by
          rw [htbl1, linkChain_length]
        have htbl2len : tbl2.length = s.inode.length := by
          rw [htbl2, List.length_set, htbl1len]
        -- the spliced chain of the target note
        have hchain0 : IsChain s.inode ps :=
          walk_isChain s.inode s.inode.length nt.head ps hch
        have hchain1 : IsChain tbl1 ps := by
          apply isChain_congr s.inode tbl1 ps hchain0
          intro q hq
          rw [htbl1]
          exact linkChain_get?_notMem _ _ _ (hdisj q hq)
        have hchainNew : IsChain tbl1 newps := by
          rw [htbl1]
          exact linkChain_isChain s.inode newps hnil hnewnd
            (fun q hq => (hnewmem q hq).1)
        have hsplice : IsChain tbl2 (ps ++ newps) := by
          rw [htbl2, hhead, hcons2]
          rw [hcons2] at hchainNew hdisj
          exact isChain_splice tbl1 ps h0 tail hchain1 hchainNew hdisj hpsnd
        have happnd : (ps ++ newps).Nodup :=
          List.Nodup.append hpsnd hnewnd (fun a ha hb => hdisj a ha hb)
        have happlt : ∀ q ∈ ps ++ newps, q < s.inode.length := by
          intro q hq
          rcases List.mem_append.mp hq with h | h
          · exact (hpsmem q h).1
          · exact (hnewmem q h).1
        have hchain2 : chain tbl2 nt.head = some (ps ++ newps) := by
          show walk tbl2 tbl2.length nt.head = some (ps ++ newps)
          have hwk := isChain_walk tbl2 (ps ++ newps) hsplice tbl2.length
            (by rw [htbl2len]
                exact nodup_lt_length_le _ _ happnd happlt)
          have hh : (ps ++ newps).headD 0 = nt.head := by rw [hcons]; rfl
          rw [hh] at hwk
          exact hwk
        -- other chains are untouched
        have hflat := flatten_allChains s A B nt ps hroot hch
        have hndG := WF_nodup s ⟨hSome, hPerm, hPlen, hPgs⟩
        rw [hflat] at hndG
        obtain ⟨_, hFA, hFB, hpsfree⟩ := nodup_four _ _ _ _ hndG
        have hothers : ∀ x ∈ A ++ B,
            chain tbl2 x.head = chain s.inode x.head := by
          intro x hx
          have hxroot : x ∈ root s := by
            rw [hroot]
            rcases List.mem_append.mp hx with h | h
            · exact List.mem_append_left _ h
            · exact List.mem_append_right _ (List.mem_cons_of_mem nt h)
          obtain ⟨cs, hcs⟩ := Option.isSome_iff_exists.mp (by
            simpa using hSome x hxroot)
          have hq_flat : ∀ q ∈ cs, q ∉ ps := by
            intro q hq
            rcases List.mem_append.mp hx with hA | hB
            · refine (hFA q ?_).1
              exact List.mem_flatten.mpr
                ⟨cs, List.mem_map.mpr ⟨x, hA, by rw [hcs]; rfl⟩, hq⟩
            · refine (hFB q ?_).1
              exact List.mem_flatten.mpr
                ⟨cs, List.mem_map.mpr ⟨x, hB, by rw [hcs]; rfl⟩, hq⟩
          have hq_nf := walk_mem_entry s.inode s.inode.length x.head cs hcs
          have hcs2 : chain tbl2 x.head = some cs := by
            show walk tbl2 tbl2.length x.head = some cs
            rw [htbl2len]
            apply walk_congr s.inode tbl2 s.inode.length x.head cs hcs
            intro q hq
            rw [htbl2]
            have hqL : L ≠ q := fun he => hq_flat q hq (by rw [← he]; exact hLmem)
            rw [List.get?_set_ne _ _ hqL]
            rw [htbl1]
            apply linkChain_get?_notMem
            intro hin
            have h2 := (hnewmem q hin).2
            rw [(hq_nf q hq).2] at h2
            cases h2
          rw [hcs2, hcs]
        -- free indices after the splice
        have hLnf1 : isFreeEntry (tbl1.get? L) = false := by
          rw [htbl1, linkChain_get?_notMem _ _ _ (hdisj L hLmem)]
          exact (hpsmem L hLmem).2
        have hfree2 : freeIndices tbl2 = freeIndices tbl1 := by
          rw [htbl2]
          exact freeIndices_set_eq tbl1 L _ hLnf1 rfl
        have hstep2 : (newps ++ freeIndices tbl1).Perm (freeIndices s.inode) := by
          rw [htbl1]
          exact freeIndices_linkChain s.inode newps hnewnd hnewmem
        -- reassemble well-formedness
        refine ⟨⟨?_, ?_, ?_, ?_⟩, rfl, htbl2len, hchain2, ?_, happnd,
          newps, rfl, rfl, ?_⟩
        · -- all chains walk
          intro nt2 hnt2
          show ((chain tbl2 nt2.head).isSome) = true
          have hnt2b : nt2 ∈ root s := hnt2
          rw [hroot] at hnt2b
          rcases List.mem_append.mp hnt2b with hA | hnb
          · rw [hothers nt2 (List.mem_append_left _ hA)]
            apply hSome
            rw [hroot]; exact List.mem_append_left _ hA
          · rcases List.mem_cons.mp hnb with rfl | hB
            · rw [hchain2]; rfl
            · rw [hothers nt2 (List.mem_append_right _ hB)]
              apply hSome
              rw [hroot]
              exact List.mem_append_right _ (List.mem_cons_of_mem _ hB)
        · -- the partition permutation
          show ((allChains ⟨tbl2, s.notes, pages2⟩).flatten ++
            freeIndices tbl2).Perm (List.range tbl2.length)
          have hflat2 : (allChains ⟨tbl2, s.notes, pages2⟩).flatten =
              ((A.map (fun x => (chain s.inode x.head).getD [])).flatten ++
               (ps ++ newps) ++
               (B.map (fun x => (chain s.inode x.head).getD [])).flatten) := by
            have := flatten_allChains ⟨tbl2, s.notes, pages2⟩ A B nt
              (ps ++ newps) (by
                show usedNotes s.notes = A ++ nt :: B
                exact hroot) hchain2
            rw [this]
            congr 1
            · congr 1
              exact congrArg List.flatten (List.map_congr_left (fun x hx => by
                show (chain tbl2 x.head).getD [] = _
                rw [hothers x (List.mem_append_left _ hx)]))
            · exact congrArg List.flatten (List.map_congr_left (fun x hx => by
                show (chain tbl2 x.head).getD [] = _
                rw [hothers x (List.mem_append_right _ hx)]))
          rw [hflat2, hfree2, htbl2len]
          set FA := (A.map (fun x => (chain s.inode x.head).getD [])).flatten
          set FB := (B.map (fun x => (chain s.inode x.head).getD [])).flatten
          have e1 : ((FA ++ (ps ++ newps) ++ FB) ++ freeIndices tbl1).Perm
              ((FA ++ ps ++ FB) ++ (newps ++ freeIndices tbl1)) := by
            rw [List.perm_iff_count]
            intro a
            simp only [List.count_append]
            omega
          refine e1.trans ?_
          refine (List.Perm.append_left _ hstep2).trans ?_
          rw [← hflat]
          exact hPerm
        · show pages2.length = tbl2.length
          rw [hpages2, zeroPages_length, htbl2len, hPlen]
        · show ∀ pg ∈ pages2, pg.length = pageSize
          intro pg hpg
          rcases zeroPages_mem s.pages newps pg hpg with h | h
          · exact hPgs pg h
          · rw [h]; exact List.length_replicate _ _
        · show (ps ++ newps).length = required
          rw [List.length_append, hnewlen]
          omega
        · intro q hq
          refine ⟨(hnewmem q hq).1, ?_⟩
          show pages2.get? q = some zeroPage
          rw [hpages2]
          exact zeroPages_get?_mem s.pages newps hnewnd
            (fun x hx => by rw [hPlen]; exact (hnewmem x hx).1) q hq

/-! ## Error paths of create and remove leave the state unchanged -/

theorem create_error_state (s : FsState) (name : Name) (e : Err)
    (h : (create s name).1 = .error e) : (create s name).2 = s := by
  unfold create at h ⊢
  by_cases h1 : name = [] ∨ name.contains '/' = true
  · rw [if_pos (by simpa using h1)]
  · rw [if_neg (by simpa using h1)] at h ⊢
    by_cases h2 : name = rootName
    · rw [if_pos h2]
    · rw [if_neg h2] at h ⊢
      by_cases h3 : (splitName name).1.length > maxBase ∨
          (splitName name).2.length > maxExt
      · rw [if_pos h3]
      · rw [if_neg h3] at h ⊢
        cases hfn : findNote s.notes name with
        | some x => simp only [hfn]
        | none =>
          simp only [hfn] at h ⊢
          cases halloc : allocateChain s.inode 1 with
          | error e2 => simp only [halloc]
          | ok r =>
            simp only [halloc] at h ⊢
            obtain ⟨ps, tbl2⟩ := r
            cases hps : ps with
            | nil => simp only [hps]
            | cons p rest =>
              simp only [hps] at h ⊢
              cases hins : insertNote s.notes ⟨name, p⟩ with
              | none => simp only [hins]
              | some notes2 => simp only [hins] at h; cases h

theorem remove_error_state (s : FsState) (name : Name) (e : Err)
    (h : (remove s name).1 = .error e) : (remove s name).2 = s := by
  unfold remove at h ⊢
  cases hfe : findE s name with
  | error e2 => simp only [hfe]
  | ok nt =>
    simp only [hfe] at h ⊢
    cases hrel : releaseChain s.inode nt.head with
    | error e2 => simp only [hrel]
    | ok tbl2 =>
      simp only [hrel] at h ⊢
      cases hrem : removeNote s.notes name with
      | none => simp only [hrem]
      | some r => simp only [hrem] at h; cases h

theorem findE_congr_notes (s s2 : FsState) (name : Name)
    (h : s2.notes = s.notes) : findE s2 name = findE s name := by
  unfold findE
  rw [h]

/-! ## Byte-level access lemmas -/

theorem byteAt_none (pages : List (List Nat)) (cs : List Nat) (pos : Nat)
    (h : cs.get? (pos / pageSize) = none) : byteAt pages cs pos = none := by
  unfold byteAt
  rw [h]

theorem byteAt_some (pages : List (List Nat)) (cs : List Nat) (pos pg : Nat)
    (h : cs.get? (pos / pageSize) = some pg) :
    byteAt pages cs pos =
      (pages.get? pg).bind (fun page => page.get? (pos % pageSize)) := by
  unfold byteAt
  rw [h]

theorem setByteInPages_byteAt_ne (pages : List (List Nat)) (cs : List Nat)
    (j b pos : Nat) (hnd : cs.Nodup) (hne : pos ≠ j) :
    byteAt (setByteInPages pages cs j b) cs pos = byteAt pages cs pos := by
  cases hj : cs.get? (j / pageSize) with
  | none =>
    have heq : setByteInPages pages cs j b = pages := by
      unfold setByteInPages; rw [hj]
    rw [heq]
  | some pgj =>
    have heq : setByteInPages pages cs j b =
        pages.set pgj ((pages.getD pgj []).set (j % pageSize) b) := by
      unfold setByteInPages; rw [hj]
    rw [heq]
    cases hp : cs.get? (pos / pageSize) with
    | none =>
      rw [byteAt_none _ _ _ hp, byteAt_none _ _ _ hp]
    | some pgp =>
      rw [byteAt_some _ _ _ _ hp, byteAt_some _ _ _ _ hp]
      by_cases hpg : pgp = pgj
      · subst hpg
        have hltp : pos / pageSize < cs.length := get?_some_lt cs _ _ hp
        have hdiv : pos / pageSize = j / pageSize := by
          apply List.getElem?_inj hltp hnd
          rw [← List.get?_eq_getElem?, ← List.get?_eq_getElem?, hp, hj]
        have hmod : pos % pageSize ≠ j % pageSize := by
          intro hm
          apply hne
          have h1 := Nat.div_add_mod pos pageSize
          have h2 := Nat.div_add_mod j pageSize
          rw [hdiv, hm] at h1
          omega
        by_cases hpl : pgp < pages.length
        · rw [List.get?_set_eq_of_lt _ hpl]
          have hgd : pages.get? pgp = some (pages.getD pgp []) := by
            rw [List.getD_eq_getElem pages [] hpl, List.get?_eq_getElem?]
            exact List.getElem?_eq_getElem hpl
          rw [hgd]
          show ((pages.getD pgp []).set (j % pageSize) b).get? (pos % pageSize)
            = (pages.getD pgp []).get? (pos % pageSize)
          exact List.get?_set_ne _ _ (fun he => hmod he.symm)
        · rw [List.set_eq_of_length_le (by omega)]
      · rw [List.get?_set_ne _ _ (fun he => hpg he.symm)]

theorem writeBytes_byteAt_out (pages : List (List Nat)) (cs : List Nat)
    (off : Nat) (buf : List Nat) (pos : Nat) (hnd : cs.Nodup)
    (hout : pos < off ∨ off + buf.length ≤ pos) :
    byteAt (writeBytes pages cs off buf) cs pos = byteAt pages cs pos := by
  induction buf generalizing pages off with
  | nil => rfl
  | cons b rest ih =>
    show byteAt (writeBytes (setByteInPages pages cs off b) cs (off + 1) rest)
      cs pos = byteAt pages cs pos
    rw [ih (setByteInPages pages cs off b) (off + 1) (by
      rcases hout with h | h
      · left; omega
      · right; simp at h; omega)]
    exact setByteInPages_byteAt_ne pages cs off b pos hnd (by
      rcases hout with h | h
      · omega
      · simp at h; omega)

theorem byteAt_zeroPage (pages : List (List Nat)) (cs : List Nat) (pos pg : Nat)
    (hcs : cs.get? (pos / pageSize) = some pg)
    (hpg : pages.get? pg = some zeroPage) :
    byteAt pages cs pos = some 0 := by
  rw [byteAt_some pages cs pos pg hcs, hpg]
  show zeroPage.get? (pos % pageSize) = some 0
  unfold zeroPage
  rw [List.get?_eq_getElem?]
  exact List.getElem?_replicate_of_lt (Nat.mod_lt _ (by decide))

/-! ## Correctness of chain shrinking -/

theorem shrink_ok (s : FsState) (nt : Note) (A B : List Note) (ps : List Nat)
    (k : Nat) (hWF : WF s)
    (hroot : root s = A ++ nt :: B)
    (hch : chain s.inode nt.head = some ps)
    (hk : 0 < k)
    (tbl2 : List LinkEntry) (hs : shrinkChain s.inode nt.head k = .ok tbl2) :
    WF ⟨tbl2, s.notes, s.pages⟩ ∧
    tbl2.length = s.inode.length ∧
    chain tbl2 nt.head = some (ps.take k) := by
  obtain ⟨hSome, hPerm, hPlen, hPgs⟩ := hWF
  have hpsnd : ps.Nodup := walk_nodup s.inode s.inode.length nt.head ps hch
  have hpsmem := walk_mem_entry s.inode s.inode.length nt.head ps hch
  have hpsne : ps ≠ [] :=
    fun he => walk_ne_nil s.inode s.inode.length nt.head (he ▸ hch)
  obtain ⟨pt, hcons⟩ := walk_cons s.inode s.inode.length nt.head ps hch
  unfold shrinkChain at hs
  simp only [hch] at hs
  injection hs with hs
  have htd : ps.take k ++ ps.drop k = ps := List.take_append_drop k ps
  have hkd_nodup : (ps.take k ++ ps.drop k).Nodup := by rw [htd]; exact hpsnd
  obtain ⟨hknd, hfnd, hdisj⟩ := List.nodup_append.mp hkd_nodup
  have hkept_sub : ∀ q ∈ ps.take k, q ∈ ps := by
    intro q hq; rw [← htd]; exact List.mem_append_left _ hq
  have hfreed_sub : ∀ q ∈ ps.drop k, q ∈ ps := by
    intro q hq; rw [← htd]; exact List.mem_append_right _ hq
  have hkne : ps.take k ≠ [] := by
    intro he
    have h0 : (ps.take k).length = 0 := by rw [he]; rfl
    rw [List.length_take] at h0
    have hlen0 : ps.length = 0 := by omega
    exact hpsne (List.length_eq_zero.mp hlen0)
  have hlmem : (ps.take k).getLastD 0 ∈ ps.take k := getLastD_mem _ 0 hkne
  have hllt : (ps.take k).getLastD 0 < s.inode.length :=
    (hpsmem _ (hkept_sub _ hlmem)).1
  have htbl2len : tbl2.length = s.inode.length := by
    rw [← hs, List.length_set, markFree_length]
  have hfmem : ∀ q ∈ ps.drop k,
      q < s.inode.length ∧ isFreeEntry (s.inode.get? q) = false :=
    fun q hq => hpsmem q (hfreed_sub q hq)
  have hchain0 : IsChain s.inode ps :=
    walk_isChain s.inode s.inode.length nt.head ps hch
  have hchainK : IsChain tbl2 (ps.take k) := by
    rw [← hs]
    apply isChain_reterm s.inode _ ps hchain0 k hpsnd hk
    · intro q hq hqne
      rw [List.get?_set_ne _ _ (fun he => hqne he.symm)]
      exact markFree_get?_notMem _ _ _ (fun hf => hdisj hq hf)
    · apply List.get?_set_eq_of_lt
      rw [markFree_length]
      exact hllt
  have hchain2 : chain tbl2 nt.head = some (ps.take k) := by
    show walk tbl2 tbl2.length nt.head = some (ps.take k)
    have hwk := isChain_walk tbl2 (ps.take k) hchainK tbl2.length
      (by rw [htbl2len]
          exact nodup_lt_length_le _ _ hknd
            (fun q hq => (hpsmem q (hkept_sub q hq)).1))
    have hh : (ps.take k).headD 0 = nt.head := by
      rw [hcons]
      cases k with
      | zero => omega
      | succ k2 => rfl
    rw [hh] at hwk
    exact hwk
  have hflat := flatten_allChains s A B nt ps hroot hch
  have hndG := WF_nodup s ⟨hSome, hPerm, hPlen, hPgs⟩
  rw [hflat] at hndG
  obtain ⟨_, hFA, hFB, hpsfree⟩ := nodup_four _ _ _ _ hndG
  have hothers : ∀ x ∈ A ++ B, chain tbl2 x.head = chain s.inode x.head := by
    intro x hx
    have hxroot : x ∈ root s := by
      rw [hroot]
      rcases List.mem_append.mp hx with h | h
      · exact List.mem_append_left _ h
      · exact List.mem_append_right _ (List.mem_cons_of_mem nt h)
    obtain ⟨cs, hcs⟩ := Option.isSome_iff_exists.mp (by
      simpa using hSome x hxroot)
    have hq_flat : ∀ q ∈ cs, q ∉ ps := by
      intro q hq
      rcases List.mem_append.mp hx with hA | hB
      · refine (hFA q ?_).1
        exact List.mem_flatten.mpr
          ⟨cs, List.mem_map.mpr ⟨x, hA, by rw [hcs]; rfl⟩, hq⟩
      · refine (hFB q ?_).1
        exact List.mem_flatten.mpr
          ⟨cs, List.mem_map.mpr ⟨x, hB, by rw [hcs]; rfl⟩, hq⟩
    have hcs2 : chain tbl2 x.head = some cs := by
      show walk tbl2 tbl2.length x.head = some cs
      rw [htbl2len]
      apply walk_congr s.inode tbl2 s.inode.length x.head cs hcs
      intro q hq
      rw [← hs]
      have hqL : ((ps.take k).getLastD 0) ≠ q :=
        fun he => hq_flat q hq (by rw [← he]; exact hkept_sub _ hlmem)
      rw [List.get?_set_ne _ _ hqL]
      exact markFree_get?_notMem _ _ _
        (fun hf => hq_flat q hq (hfreed_sub _ hf))
    rw [hcs2, hcs]
  have hlk_nf : isFreeEntry
      ((markFree s.inode (ps.drop k)).get? ((ps.take k).getLastD 0)) = false := by
    rw [markFree_get?_notMem _ _ _ (fun hf => hdisj hlmem hf)]
    exact (hpsmem _ (hkept_sub _ hlmem)).2
  have hfree2 : freeIndices tbl2 = freeIndices (markFree s.inode (ps.drop k)) := by
    rw [← hs]
    exact freeIndices_set_eq _ _ _ hlk_nf rfl
  have hstep2 : (freeIndices (markFree s.inode (ps.drop k))).Perm
      (ps.drop k ++ freeIndices s.inode) :=
    freeIndices_markFree s.inode (ps.drop k) hfnd hfmem
  refine ⟨⟨?_, ?_, ?_, ?_⟩, htbl2len, hchain2⟩
  · intro nt2 hnt2
    show ((chain tbl2 nt2.head).isSome) = true
    have hnt2b : nt2 ∈ root s := hnt2
    rw [hroot] at hnt2b
    rcases List.mem_append.mp hnt2b with hA | hnb
    · rw [hothers nt2 (List.mem_append_left _ hA)]
      apply hSome
      rw [hroot]; exact List.mem_append_left _ hA
    · rcases List.mem_cons.mp hnb with rfl | hB
      · rw [hchain2]; rfl
      · rw [hothers nt2 (List.mem_append_right _ hB)]
        apply hSome
        rw [hroot]
        exact List.mem_append_right _ (List.mem_cons_of_mem _ hB)
  · show ((allChains ⟨tbl2, s.notes, s.pages⟩).flatten ++
      freeIndices tbl2).Perm (List.range tbl2.length)
    have hflat2 : (allChains ⟨tbl2, s.notes, s.pages⟩).flatten =
        ((A.map (fun x => (chain s.inode x.head).getD [])).flatten ++
         ps.take k ++
         (B.map (fun x => (chain s.inode x.head).getD [])).flatten) := by
      have := flatten_allChains ⟨tbl2, s.notes, s.pages⟩ A B nt
        (ps.take k) (by
          show usedNotes s.notes = A ++ nt :: B
          exact hroot) hchain2
      rw [this]
      congr 1
      · congr 1
        exact congrArg List.flatten (List.map_congr_left (fun x hx => by
          show (chain tbl2 x.head).getD [] = _
          rw [hothers x (List.mem_append_left _ hx)]))
      · exact congrArg List.flatten (List.map_congr_left (fun x hx => by
          show (chain tbl2 x.head).getD [] = _
          rw [hothers x (List.mem_append_right _ hx)]))
    rw [hflat2, hfree2, htbl2len]
    refine (List.Perm.append_left _ hstep2).trans ?_
    have e1 : (((A.map (fun x => (chain s.inode x.head).getD [])).flatten ++
        ps.take k ++
        (B.map (fun x => (chain s.inode x.head).getD [])).flatten) ++
        (ps.drop k ++ freeIndices s.inode)).Perm
        (((A.map (fun x => (chain s.inode x.head).getD [])).flatten ++
        (ps.take k ++ ps.drop k) ++
        (B.map (fun x => (chain s.inode x.head).getD [])).flatten) ++
        freeIndices s.inode) := by
      rw [List.perm_iff_count]
      intro a
      simp only [List.count_append]
      omega
    refine e1.trans ?_
    rw [htd, ← hflat]
    exact hPerm
  · show s.pages.length = tbl2.length
    rw [htbl2len, hPlen]
  · exact hPgs

/-! ## Well-formedness is preserved by every mount-level operation -/

theorem WF_writeBytes (s : FsState) (cs : List Nat) (off : Nat)
    (buf : List Nat) (h : WF s) :
    WF { s with pages := writeBytes s.pages cs off buf } := by
  obtain ⟨h1, h2, h3, h4⟩ := h
  refine ⟨h1, h2, ?_, ?_⟩
  · show (writeBytes s.pages cs off buf).length = s.inode.length
    rw [writeBytes_length]
    exact h3
  · exact writeBytes_mem s.pages cs off buf h4

theorem WF_truncate (s : FsState) (name : Name) (sz : Int) (h : WF s) :
    WF (truncate s name sz).2 := by
  unfold truncate
  by_cases hneg : sz < 0
  · rw [if_pos hneg]; exact h
  · rw [if_neg hneg]
    cases hfe : findE s name with
    | error e => simp only [hfe]; exact h
    | ok nt =>
      simp only [hfe]
      cases hch : chain s.inode nt.head with
      | none => simp only [hch]; exact h
      | some ps =>
        simp only [hch]
        by_cases heq : requiredPages sz.toNat = ps.length
        · rw [if_pos heq]; exact h
        · rw [if_neg heq]
          obtain ⟨hval, hrootne, hfn⟩ := findE_ok_inv s name nt hfe
          obtain ⟨A, B, hsplit⟩ := root_split_of_findNote s.notes name nt hfn
          by_cases hlt : ps.length < requiredPages sz.toNat
          · rw [if_pos hlt]
            cases hg : growFile s ps (requiredPages sz.toNat) with
            | error e => simp only [hg]; exact h
            | ok r =>
              simp only [hg]
              exact (growFile_ok s nt A B ps _ h hsplit hch (by omega) r hg).1
          · rw [if_neg hlt]
            cases hs : shrinkChain s.inode nt.head (requiredPages sz.toNat) with
            | error e => simp only [hs]; exact h
            | ok tbl2 =>
              simp only [hs]
              have hk : 0 < requiredPages sz.toNat := by
                unfold requiredPages; omega
              exact (shrink_ok s nt A B ps _ h hsplit hch hk tbl2 hs).1

theorem WF_writeAt (s : FsState) (name : Name) (buf : List Nat) (off : Nat)
    (h : WF s) : WF (writeAt s name buf off).2 := by
  unfold writeAt
  cases hfe : findE s name with
  | error e => simp only [hfe]; exact h
  | ok nt =>
    simp only [hfe]
    cases hch : chain s.inode nt.head with
    | none => simp only [hch]; exact h
    | some ps =>
      simp only [hch]
      by_cases hle : off + buf.length ≤ ps.length * pageSize
      · rw [if_pos hle]
        exact WF_writeBytes s ps off buf h
      · rw [if_neg hle]
        obtain ⟨hval, hrootne, hfn⟩ := findE_ok_inv s name nt hfe
        obtain ⟨A, B, hsplit⟩ := root_split_of_findNote s.notes name nt hfn
        cases hg : growFile s ps (requiredPages (off + buf.length)) with
        | error e => simp only [hg]; exact h
        | ok r =>
          simp only [hg]
          have hreq : ps.length ≤ requiredPages (off + buf.length) := by
            unfold requiredPages
            have : ps.length * pageSize < off + buf.length := by omega
            have hps : ps.length ≤ (off + buf.length + pageSize - 1) / pageSize := by
              rw [Nat.le_div_iff_mul_le (by decide : 0 < pageSize)]
              omega
            omega
          have hb := growFile_ok s nt A B ps _ h hsplit hch hreq r hg
          exact WF_writeBytes r.2 r.1 off buf hb.1

theorem WF_remove (s : FsState) (name : Name) (h : WF s) :
    WF (remove s name).2 := by
  unfold remove
  cases hfe : findE s name with
  | error e => simp only [hfe]; exact h
  | ok nt =>
    simp only [hfe]
    cases hch : chain s.inode nt.head with
    | none =>
      have hrel : releaseChain s.inode nt.head = .error .structural := by
        unfold releaseChain; simp only [hch]
      simp only [hrel]
      exact h
    | some ps =>
      have hrel : releaseChain s.inode nt.head = .ok (markFree s.inode ps) := by
        unfold releaseChain; simp only [hch]
      simp only [hrel]
      obtain ⟨hval, hrootne, hfn⟩ := findE_ok_inv s name nt hfe
      obtain ⟨nts2, hrem⟩ := removeNote_of_findNote s.notes name nt hfn
      simp only [hrem]
      obtain ⟨A, B, hu1, hu2⟩ :=
        usedNotes_removeNote_split s.notes name nt nts2 hrem
      obtain ⟨hSome, hPerm, hPlen, hPgs⟩ := h
      have hpsnd : ps.Nodup := walk_nodup s.inode s.inode.length nt.head ps hch
      have hpsmem := walk_mem_entry s.inode s.inode.length nt.head ps hch
      have hflat := flatten_allChains s A B nt ps hu1 hch
      have hndG := WF_nodup s ⟨hSome, hPerm, hPlen, hPgs⟩
      rw [hflat] at hndG
      obtain ⟨_, hFA, hFB, hpsfree⟩ := nodup_four _ _ _ _ hndG
      have hothers : ∀ x ∈ A ++ B,
          chain (markFree s.inode ps) x.head = chain s.inode x.head := by
        intro x hx
        have hxroot : x ∈ root s := by
          rw [show root s = A ++ nt :: B from hu1]
          rcases List.mem_append.mp hx with h | h
          · exact List.mem_append_left _ h
          · exact List.mem_append_right _ (List.mem_cons_of_mem nt h)
        obtain ⟨cs, hcs⟩ := Option.isSome_iff_exists.mp (by
          simpa using hSome x hxroot)
        have hq_flat : ∀ q ∈ cs, q ∉ ps := by
          intro q hq
          rcases List.mem_append.mp hx with hA | hB
          · refine (hFA q ?_).1
            exact List.mem_flatten.mpr
              ⟨cs, List.mem_map.mpr ⟨x, hA, by rw [hcs]; rfl⟩, hq⟩
          · refine (hFB q ?_).1
            exact List.mem_flatten.mpr
              ⟨cs, List.mem_map.mpr ⟨x, hB, by rw [hcs]; rfl⟩, hq⟩
        have hcs2 : chain (markFree s.inode ps) x.head = some cs := by
          show walk (markFree s.inode ps) (markFree s.inode ps).length x.head
            = some cs
          rw [markFree_length]
          apply walk_congr s.inode _ s.inode.length x.head cs hcs
          intro q hq
          exact markFree_get?_notMem _ _ _ (hq_flat q hq)
        rw [hcs2, hcs]
      have hstep2 : (freeIndices (markFree s.inode ps)).Perm
          (ps ++ freeIndices s.inode) :=
        freeIndices_markFree s.inode ps hpsnd hpsmem
      refine ⟨?_, ?_, ?_, ?_⟩
      · intro nt2 hnt2
        show ((chain (markFree s.inode ps) nt2.head).isSome) = true
        have hnt2b : nt2 ∈ A ++ B := by
          have : nt2 ∈ usedNotes nts2 := hnt2
          rw [hu2] at this
          exact this
        rw [hothers nt2 hnt2b]
        apply hSome
        rw [show root s = A ++ nt :: B from hu1]
        rcases List.mem_append.mp hnt2b with h | h
        · exact List.mem_append_left _ h
        · exact List.mem_append_right _ (List.mem_cons_of_mem nt h)
      · show ((allChains ⟨markFree s.inode ps, nts2, s.pages⟩).flatten ++
          freeIndices (markFree s.inode ps)).Perm
          (List.range (markFree s.inode ps).length)
        have hflat2 : (allChains ⟨markFree s.inode ps, nts2, s.pages⟩).flatten =
            ((A.map (fun x => (chain s.inode x.head).getD [])).flatten ++
             (B.map (fun x => (chain s.inode x.head).getD [])).flatten) := by
          show ((usedNotes nts2).map
            (fun x => (chain (markFree s.inode ps) x.head).getD [])).flatten = _
          rw [hu2, List.map_append, List.flatten_append]
          congr 1
          · exact congrArg List.flatten (List.map_congr_left (fun x hx => by
              rw [hothers x (List.mem_append_left _ hx)]))
          · exact congrArg List.flatten (List.map_congr_left (fun x hx => by
              rw [hothers x (List.mem_append_right _ hx)]))
        rw [hflat2, markFree_length]
        refine (List.Perm.append_left _ hstep2).trans ?_
        have e1 : (((A.map (fun x => (chain s.inode x.head).getD [])).flatten ++
            (B.map (fun x => (chain s.inode x.head).getD [])).flatten) ++
            (ps ++ freeIndices s.inode)).Perm
            (((A.map (fun x => (chain s.inode x.head).getD [])).flatten ++
            ps ++
            (B.map (fun x => (chain s.inode x.head).getD [])).flatten) ++
            freeIndices s.inode) := by
          rw [List.perm_iff_count]
          intro a
          simp only [List.count_append]
          omega
        refine e1.trans ?_
        rw [← hflat]
        exact hPerm
      · show s.pages.length = (markFree s.inode ps).length
        rw [markFree_length, hPlen]
      · exact hPgs

theorem WF_create (s : FsState) (name : Name) (h : WF s) :
    WF (create s name).2 := by
  cases h1 : (create s name).1 with
  | error e => rw [create_error_state s name e h1]; exact h
  | ok nt =>
    have hc : create s name = (.ok nt, (create s name).2) := by
      rw [← h1]
    obtain ⟨p, nts2, hval, hrootne, hfn, hplt, hpfree, hins, hnt, hstate⟩ :=
      create_ok_inversion s name nt (create s name).2 hc
    rw [hstate]
    obtain ⟨A, B, hu1, hu2⟩ := usedNotes_insertNote_split s.notes ⟨name, p⟩
      nts2 hins
    obtain ⟨hSome, hPerm, hPlen, hPgs⟩ := h
    have hchainNew : chain (s.inode.set p .term) p = some [p] := by
      show walk (s.inode.set p .term) (s.inode.set p .term).length p = some [p]
      rw [List.length_set]
      exact walk_of_term _ _ _ (List.get?_set_eq_of_lt _ hplt) (by omega)
    have hothers : ∀ x ∈ A ++ B,
        chain (s.inode.set p .term) x.head = chain s.inode x.head := by
      intro x hx
      have hxroot : x ∈ root s := by
        rw [show root s = A ++ B from hu1]
        exact hx
      obtain ⟨cs, hcs⟩ := Option.isSome_iff_exists.mp (by
        simpa using hSome x hxroot)
      have hq_nf := walk_mem_entry s.inode s.inode.length x.head cs hcs
      have hcs2 : chain (s.inode.set p .term) x.head = some cs := by
        show walk (s.inode.set p .term) (s.inode.set p .term).length x.head
          = some cs
        rw [List.length_set]
        apply walk_congr s.inode _ s.inode.length x.head cs hcs
        intro q hq
        apply List.get?_set_ne
        intro he
        have h2 := (hq_nf q hq).2
        rw [← he, hpfree] at h2
        cases h2
      rw [hcs2, hcs]
    have hpf := freeIndices_set_nonfree s.inode p .term hplt hpfree rfl
    refine ⟨?_, ?_, ?_, ?_⟩
    · intro nt2 hnt2
      show ((chain (s.inode.set p .term) nt2.head).isSome) = true
      have hnt2b : nt2 ∈ A ++ (⟨name, p⟩ : Note) :: B := by
        have : nt2 ∈ usedNotes nts2 := hnt2
        rw [hu2] at this
        exact this
      rcases List.mem_append.mp hnt2b with hA | hnb
      · rw [hothers nt2 (List.mem_append_left _ hA)]
        apply hSome
        rw [show root s = A ++ B from hu1]
        exact List.mem_append_left _ hA
      · rcases List.mem_cons.mp hnb with rfl | hB
        · rw [hchainNew]; rfl
        · rw [hothers nt2 (List.mem_append_right _ hB)]
          apply hSome
          rw [show root s = A ++ B from hu1]
          exact List.mem_append_right _ hB
    · show ((allChains ⟨s.inode.set p .term, nts2, zeroPages s.pages [p]⟩).flatten
        ++ freeIndices (s.inode.set p .term)).Perm
        (List.range (s.inode.set p .term).length)
      have hflat2 :
          (allChains ⟨s.inode.set p .term, nts2, zeroPages s.pages [p]⟩).flatten =
          ((A.map (fun x => (chain s.inode x.head).getD [])).flatten ++
           [p] ++
           (B.map (fun x => (chain s.inode x.head).getD [])).flatten) := by
        have := flatten_allChains
          ⟨s.inode.set p .term, nts2, zeroPages s.pages [p]⟩ A B ⟨name, p⟩ [p]
          (by show usedNotes nts2 = A ++ _ :: B; exact hu2) hchainNew
        rw [this]
        congr 1
        · congr 1
          exact congrArg List.flatten (List.map_congr_left (fun x hx => by
            show (chain (s.inode.set p .term) x.head).getD [] = _
            rw [hothers x (List.mem_append_left _ hx)]))
        · exact congrArg List.flatten (List.map_congr_left (fun x hx => by
            show (chain (s.inode.set p .term) x.head).getD [] = _
            rw [hothers x (List.mem_append_right _ hx)]))
      have hflat1 : (allChains s).flatten =
          ((A.map (fun x => (chain s.inode x.head).getD [])).flatten ++
           (B.map (fun x => (chain s.inode x.head).getD [])).flatten) := by
        show ((root s).map (fun x => (chain s.inode x.head).getD [])).flatten = _
        rw [show root s = A ++ B from hu1, List.map_append, List.flatten_append]
      rw [hflat2, List.length_set]
      have e1 : (((A.map (fun x => (chain s.inode x.head).getD [])).flatten ++
          [p] ++
          (B.map (fun x => (chain s.inode x.head).getD [])).flatten) ++
          freeIndices (s.inode.set p .term)).Perm
          (((A.map (fun x => (chain s.inode x.head).getD [])).flatten ++
          (B.map (fun x => (chain s.inode x.head).getD [])).flatten) ++
          (p :: freeIndices (s.inode.set p .term))) := by
        rw [List.perm_iff_count]
        intro a
        simp only [List.count_append, List.count_cons]
        by_cases ha : a = p <;> simp [ha] <;> omega
      refine e1.trans ?_
      refine (List.Perm.append_left _ hpf.symm).trans ?_
      rw [← hflat1]
      exact hPerm
    · show (zeroPages s.pages [p]).length = (s.inode.set p .term).length
      rw [zeroPages_length, List.length_set, hPlen]
    · show ∀ pg ∈ zeroPages s.pages [p], pg.length = pageSize
      intro pg hpg
      rcases zeroPages_mem s.pages [p] pg hpg with hm | hm
      · exact hPgs pg hm
      · rw [hm]; exact List.length_replicate _ _

theorem WF_applyOp (s : FsState) (op : FsOp) (h : WF s) : WF (applyOp s op) := by
  cases op with
  | createOp n => exact WF_create s n h
  | removeOp n => exact WF_remove s n h
  | truncateOp n sz => exact WF_truncate s n sz h
  | writeOp n b o => exact WF_writeAt s n b o h

theorem WF_applyOps (s : FsState) (l : List FsOp) (h : WF s) :
    WF (applyOps s l) := by
  induction l generalizing s with
  | nil => exact h
  | cons op rest ih => exact ih (applyOp s op) (WF_applyOp s op h)

theorem sum_map_mul (l : List Note) (g : Note → Nat) (c : Nat) :
    (l.map (fun x => g x * c)).sum = (l.map g).sum * c := by
  induction l with
  | nil => simp
  | cons a t ih => simp [ih, Nat.add_mul]

theorem WF_space_invariant (s : FsState) (h : WF s) :
    sizeSum s + countFree s.inode * pageSize = totalCapacity s := by
  obtain ⟨h1, h2, _, _⟩ := h
  have hlen := h2.length_eq
  rw [List.length_append, List.length_range] at hlen
  have hss : sizeSum s = (allChains s).flatten.length * pageSize := by
    unfold sizeSum fileSize
    rw [show (allChains s).flatten.length =
        ((root s).map (fun nt => ((chain s.inode nt.head).getD []).length)).sum
      from by
        rw [List.length_flatten]
        unfold allChains
        rw [List.map_map]
        rfl]
    exact sum_map_mul (root s) _ pageSize
  rw [hss]
  show (allChains s).flatten.length * pageSize +
    (freeIndices s.inode).length * pageSize = s.inode.length * pageSize
  rw [← Nat.add_mul, hlen]

/-- C4: for any well-formed mounted filesystem and after every sequence of
operations, the sum of file sizes over all entries listed by root plus the
free page count times the page size equals the medium's total capacity. -/
theorem space_accounting (s : FsState) (ops : List FsOp) (h : WF s) :
    sizeSum (applyOps s ops) +
      countFree (applyOps s ops).inode * pageSize =
      totalCapacity (applyOps s ops) :=
  WF_space_invariant (applyOps s ops) (WF_applyOps s ops h)

/-- Witness for C4: a concrete create, write, truncate and remove sequence
on the sample state keeps the space accounting exact. -/
theorem space_accounting_witness :
    sizeSum (applyOps sampleState
        [FsOp.createOp ['B'], FsOp.writeOp ['B'] [1, 2, 3] 300,
         FsOp.truncateOp ['A'] 300, FsOp.removeOp ['A']]) +
      countFree (applyOps sampleState
        [FsOp.createOp ['B'], FsOp.writeOp ['B'] [1, 2, 3] 300,
         FsOp.truncateOp ['A'] 300, FsOp.removeOp ['A']]).inode * pageSize =
      totalCapacity (applyOps sampleState
        [FsOp.createOp ['B'], FsOp.writeOp ['B'] [1, 2, 3] 300,
         FsOp.truncateOp ['A'] 300, FsOp.removeOp ['A']]) :=
  space_accounting sampleState
    [FsOp.createOp ['B'], FsOp.writeOp ['B'] [1, 2, 3] 300,
     FsOp.truncateOp ['A'] 300, FsOp.removeOp ['A']]
    (by set_option maxRecDepth 8192 in decide)

/-! ## C5: write-induced gaps and trailing bytes read back as zero -/

theorem requiredPages_mul_ge (bytes : Nat) :
    bytes ≤ requiredPages bytes * pageSize := by
  unfold requiredPages
  have h1 := Nat.div_add_mod (bytes + pageSize - 1) pageSize
  have h2 : (bytes + pageSize - 1) % pageSize < pageSize :=
    Nat.mod_lt _ (by decide)
  have h3 : (bytes + pageSize - 1) / pageSize ≤
      max 1 ((bytes + pageSize - 1) / pageSize) := Nat.le_max_right _ _
  simp only [pageSize] at h1 h2 ⊢
  omega

/-- C5: a successful writeAt that grows the file beyond its old size
leaves every byte strictly between the old size and the write offset, and
every trailing byte of the newly allocated final region beyond the end of
the buffer, reading back as zero. -/
theorem writeAt_gap_zero (s : FsState) (name : Name) (buf : List Nat)
    (off : Nat) (nt : Note) (ps : List Nat) (n : Nat) (s2 : FsState)
    (hWF : WF s) (hfe : findE s name = .ok nt)
    (hch : chain s.inode nt.head = some ps)
    (hgrow : ps.length * pageSize < off + buf.length)
    (hw : writeAt s name buf off = (.ok n, s2)) :
    readAt s2 name (ps.length * pageSize) (off - ps.length * pageSize) =
      .ok (List.replicate (off - ps.length * pageSize) 0) ∧
    readAt s2 name (off + buf.length) (fileSize s2 nt - (off + buf.length)) =
      .ok (List.replicate (fileSize s2 nt - (off + buf.length)) 0) := by
  unfold writeAt at hw
  simp only [hfe, hch] at hw
  rw [if_neg (by omega)] at hw
  cases hg : growFile s ps (requiredPages (off + buf.length)) with
  | error e => rw [hg] at hw; cases hw
  | ok r =>
    simp only [hg] at hw
    injection hw with hw1 hw2
    obtain ⟨hval, hrootne, hfn⟩ := findE_ok_inv s name nt hfe
    obtain ⟨A, B, hsplit⟩ := root_split_of_findNote s.notes name nt hfn
    have hreq : ps.length ≤ requiredPages (off + buf.length) := by
      unfold requiredPages
      have hps : ps.length ≤ (off + buf.length + pageSize - 1) / pageSize := by
        rw [Nat.le_div_iff_mul_le (by decide : 0 < pageSize)]
        omega
      omega
    obtain ⟨hWF2, hnotes, hilen, hchain2, hlen2, hnd2, newps, hr1, hpages, hnews⟩ :=
      growFile_ok s nt A B ps _ hWF hsplit hch hreq r hg
    subst hw2
    have hchainS2 : chain
        ({ r.2 with pages := writeBytes r.2.pages r.1 off buf } : FsState).inode
        nt.head = some r.1 := hchain2
    have hfe2 : findE { r.2 with pages := writeBytes r.2.pages r.1 off buf }
        name = .ok nt := by
      have hne := findE_congr_notes s
        { r.2 with pages := writeBytes r.2.pages r.1 off buf } name hnotes
      rw [hne, hfe]
    have hend_le : off + buf.length ≤
        requiredPages (off + buf.length) * pageSize :=
      requiredPages_mul_ge (off + buf.length)
    have hsize2 : fileSize { r.2 with pages := writeBytes r.2.pages r.1 off buf }
        nt = requiredPages (off + buf.length) * pageSize := by
      unfold fileSize
      rw [hchainS2]
      show r.1.length * pageSize = _
      rw [hlen2]
    have hbyte : ∀ pos, ps.length * pageSize ≤ pos →
        pos < requiredPages (off + buf.length) * pageSize →
        (pos < off ∨ off + buf.length ≤ pos) →
        byteAt (writeBytes r.2.pages r.1 off buf) r.1 pos = some 0 := by
      intro pos h1 h2 h3
      have hposdiv_ge : ps.length ≤ pos / pageSize := by
        rw [Nat.le_div_iff_mul_le (by decide : 0 < pageSize)]
        omega
      have hposdiv_lt : pos / pageSize < requiredPages (off + buf.length) := by
        rw [Nat.div_lt_iff_lt_mul (by decide : 0 < pageSize)]
        omega
      have hgetr : r.1.get? (pos / pageSize) =
          newps.get? (pos / pageSize - ps.length) := by
        rw [hr1]
        exact List.get?_append_right hposdiv_ge
      have hlenr : r.1.length = ps.length + newps.length := by
        rw [hr1, List.length_append]
      cases hpg : newps.get? (pos / pageSize - ps.length) with
      | none =>
        have := List.get?_eq_none.mp hpg
        omega
      | some pg =>
        have hpgmem : pg ∈ newps := List.get?_mem hpg
        have hz := (hnews pg hpgmem).2
        rw [writeBytes_byteAt_out r.2.pages r.1 off buf pos hnd2 h3]
        exact byteAt_zeroPage r.2.pages r.1 pos pg (by rw [hgetr, hpg]) hz
    constructor
    · unfold readAt
      simp only [hfe2, hchainS2]
      have havail : min (off - ps.length * pageSize)
          (r.1.length * pageSize - ps.length * pageSize) =
          off - ps.length * pageSize := by
        apply Nat.min_eq_left
        have : off + buf.length ≤ r.1.length * pageSize := by
          rw [hlen2]; exact hend_le
        omega
      rw [havail]
      congr 1
      apply List.eq_replicate.mpr
      refine ⟨by simp, ?_⟩
      intro b hb
      obtain ⟨i, hi, hfb⟩ := List.mem_map.mp hb
      rw [List.mem_range] at hi
      rw [← hfb]
      have hz := hbyte (ps.length * pageSize + i) (by omega)
        (by omega) (by left; omega)
      show (byteAt (writeBytes r.2.pages r.1 off buf) r.1
        (ps.length * pageSize + i)).getD 0 = 0
      rw [hz]
      rfl
    · unfold readAt
      simp only [hfe2, hchainS2]
      rw [hsize2]
      have havail : min
          (requiredPages (off + buf.length) * pageSize - (off + buf.length))
          (r.1.length * pageSize - (off + buf.length)) =
          requiredPages (off + buf.length) * pageSize - (off + buf.length) := by
        rw [hlen2]
        exact Nat.min_self _
      rw [havail]
      congr 1
      apply List.eq_replicate.mpr
      refine ⟨by simp, ?_⟩
      intro b hb
      obtain ⟨i, hi, hfb⟩ := List.mem_map.mp hb
      rw [List.mem_range] at hi
      rw [← hfb]
      have hz := hbyte (off + buf.length + i) (by omega)
        (by omega) (by right; omega)
      show (byteAt (writeBytes r.2.pages r.1 off buf) r.1
        (off + buf.length + i)).getD 0 = 0
      rw [hz]
      rfl

/-- Witness for C5: writing one byte at offset 600 of the two-page file
"A" grows it to three pages; the gap bytes 512..599 and the trailing bytes
601..767 of the new page read back as zero. -/
theorem writeAt_gap_zero_witness :
    readAt (writeAt sampleState ['A'] [7] 600).2 ['A'] 512 88 =
      .ok (List.replicate 88 0) ∧
    readAt (writeAt sampleState ['A'] [7] 600).2 ['A'] 601
        (fileSize (writeAt sampleState ['A'] [7] 600).2 ⟨['A'], 0⟩ - 601) =
      .ok (List.replicate
        (fileSize (writeAt sampleState ['A'] [7] 600).2 ⟨['A'], 0⟩ - 601) 0) :=
  writeAt_gap_zero sampleState ['A'] [7] 600 ⟨['A'], 0⟩ [0, 1] 1
    (writeAt sampleState ['A'] [7] 600).2
    (by set_option maxRecDepth 8192 in decide) rfl (by decide) (by decide) rfl

end PakFs
